import Mathlib

/-!
# Verification of the email-crawler core

Shallow embedding of the crawl orchestrator (`src/crawler/crawler-engine.ts`),
link discovery (`src/crawler/link-discovery.ts`), the URL validator
(`src/validators/url-validator.ts`) and the email extractor
(`src/extractors/email-extractor.ts`), together with proofs of the
specified properties.

The source code delegates URL parsing to the JavaScript `URL` built-in
(the WHATWG URL standard).  The embedding is therefore parameterized over
a `URLModel` providing `parse` (`new URL(u)`), `resolve`
(`new URL(link, base)`) and `serialize` (`URL#toString`); all universal
theorems hold for every model.  A concrete model `jsURL`, covering the
fragment of WHATWG URL behaviour exercised by concrete inputs in this
development (`scheme://host[:port][/path][?query][#hash]`, ASCII hosts,
no dot-segments, no percent-encoding), is used for witnesses and
counterexamples.
-/

namespace EmailCrawler

/-- The components of a parsed URL, mirroring the fields of the JavaScript
`URL` object used by the source (`protocol` includes the trailing `:`,
`search` includes the leading `?` when non-empty, `hash` includes the
leading `#` when non-empty). -/
structure URLRec where
  protocol : String
  hostname : String
  port : String
  pathname : String
  search : String
  hashFrag : String
deriving DecidableEq, Repr

/-- Abstract interface to the JavaScript `URL` built-in: `parse u` models
`new URL(u)` (`none` models a thrown `TypeError`), `resolve link base`
models `new URL(link, base)`, and `serialize` models `URL#toString`. -/
structure URLModel where
  parse : String → Option URLRec
  resolve : String → String → Option URLRec
  serialize : URLRec → String

/-- Embedding of `isValid` from `src/validators/url-validator.ts`:
parse the URL and accept only the `http:`/`https:` protocols;
a parse failure yields `false`. -/
def isValid (M : URLModel) (url : String) : Bool :=
  match M.parse url with
  | some parsed => parsed.protocol == "http:" || parsed.protocol == "https:"
  | none => false

/-- Embedding of `getDomain` from `src/validators/url-validator.ts`:
the hostname of the parsed URL, or `""` if parsing fails. -/
def getDomain (M : URLModel) (url : String) : String :=
  match M.parse url with
  | some parsed => parsed.hostname
  | none => ""

/-- Split a character list at every occurrence of `sep`
(`String.split` semantics: n separators yield n+1 pieces). -/
def splitOnChar (sep : Char) : List Char → List (List Char)
  | [] => [[]]
  | c :: cs =>
    if c == sep then [] :: splitOnChar sep cs
    else
      match splitOnChar sep cs with
      | piece :: pieces => (c :: piece) :: pieces
      | [] => [[c]]

/-- ASCII lowercasing of a string (JavaScript `toLowerCase` on the ASCII
inputs occurring here). -/
def toLowerStr (s : String) : String :=
  String.mk (s.data.map Char.toLower)

/-- Lexicographic comparison of character lists — what
`a.localeCompare(b) ≤ 0` computes on the plain ASCII keys used here. -/
def lexLe : List Char → List Char → Bool
  | [], _ => true
  | _ :: _, [] => false
  | a :: as, b :: bs =>
    if a < b then true
    else if b < a then false
    else lexLe as bs

/-- One query key/value pair, as produced by `URLSearchParams`. -/
abbrev QueryPair := List Char × List Char

/-- Split one `k=v` piece at the first `=` (as `URLSearchParams` does);
a piece without `=` gets the empty value. -/
def splitPair (p : List Char) : QueryPair :=
  (p.takeWhile (fun c => c != '='),
   match p.dropWhile (fun c => c != '=') with
   | _ :: v => v
   | [] => [])

/-- Insert a pair into a key-sorted list, after all pairs with keys
`≤` its own — the placement a stable sort gives it. -/
def insertPair (x : QueryPair) : List QueryPair → List QueryPair
  | [] => [x]
  | y :: ys =>
    if lexLe x.1 y.1 && !(lexLe y.1 x.1) then x :: y :: ys
    else y :: insertPair x ys

/-- Stable sort of query pairs by key (JavaScript `Array#sort` is
stable, with the `localeCompare`-on-keys comparator). -/
def sortPairs (pairs : List QueryPair) : List QueryPair :=
  pairs.foldl (fun acc x => insertPair x acc) []

/-- Model of the query-sorting step of `normalizeURL`
(`src/validators/url-validator.ts` lines 79-86): read the pairs out of
the search string, stably sort them by key (`localeCompare`, which on
the plain ASCII keys used here agrees with lexicographic order), and
re-serialize in the `URLSearchParams` way (`k=v` joined by `&`, and a
lone key serializes as `k=`).  The result includes the leading `?`
re-added by the `search` setter, or is empty when no pairs remain. -/
def sortQuery (search : String) : String :=
  let q := match search.data with
    | '?' :: t => t
    | t => t
  let pieces := (splitOnChar '&' q).filter (fun p => p ≠ [])
  let sorted := sortPairs (pieces.map splitPair)
  let str := String.intercalate "&"
    (sorted.map (fun kv => String.mk kv.1 ++ "=" ++ String.mk kv.2))
  if str = "" then "" else "?" ++ str

/-- The field transformations performed by `normalizeURL`
(`src/validators/url-validator.ts` lines 61-88) on a successfully parsed
URL: lowercase hostname, drop default ports, drop a trailing slash from
a non-root pathname, and sort the query parameters. -/
def normalizeRec (r : URLRec) : URLRec :=
  let r1 := { r with hostname := toLowerStr r.hostname }
  let r2 := if (r1.protocol = "http:" ∧ r1.port = "80") ∨
               (r1.protocol = "https:" ∧ r1.port = "443") then
              { r1 with port := "" } else r1
  let r3 := if r2.pathname.length > 1 ∧ r2.pathname.data.getLast? = some '/' then
              { r2 with pathname := r2.pathname.dropRight 1 } else r2
  if r3.search ≠ "" then { r3 with search := sortQuery r3.search } else r3

/-- Embedding of `normalizeURL` from `src/validators/url-validator.ts`:
parse, transform the fields, and re-serialize; if parsing throws, the
input is returned unchanged. -/
def normalizeURL (M : URLModel) (url : String) : String :=
  match M.parse url with
  | some parsed => M.serialize (normalizeRec parsed)
  | none => url

/-! ## A concrete model of the JavaScript `URL` built-in -/

/-- ASCII letter test (`[a-zA-Z]`), as used by URL scheme parsing. -/
def isAsciiAlpha (c : Char) : Bool :=
  ('a' ≤ c && c ≤ 'z') || ('A' ≤ c && c ≤ 'Z')

/-- Split `path?query#hash` characters into the `pathname`, `search` and
`hash` fields the way the `URL` object exposes them (empty path becomes
`/`; a `?`/`#` with nothing after it is dropped). -/
def splitPQH (l : List Char) : String × String × String :=
  let path := l.takeWhile (fun c => !(c == '?' || c == '#'))
  let rest := l.dropWhile (fun c => !(c == '?' || c == '#'))
  let pathname := if path = [] then "/" else String.mk path
  match rest with
  | '?' :: t =>
    let q := t.takeWhile (fun c => c ≠ '#')
    let h := t.dropWhile (fun c => c ≠ '#')
    (pathname,
     (if q = [] then "" else String.mk ('?' :: q)),
     (if h = [] ∨ h = ['#'] then "" else String.mk h))
  | '#' :: t => (pathname, "", if t = [] then "" else String.mk ('#' :: t))
  | _ => (pathname, "", "")

/-- Parse the authority-and-after part (everything following `scheme://`)
of a special-scheme URL. -/
def parseAfterSlashes (scheme : String) (l : List Char) : Option URLRec :=
  let auth := l.takeWhile (fun c => !(c == '/' || c == '?' || c == '#'))
  let pathRest := l.dropWhile (fun c => !(c == '/' || c == '?' || c == '#'))
  let hostCs := auth.takeWhile (fun c => c ≠ ':')
  let portCs := auth.dropWhile (fun c => c ≠ ':')
  if hostCs = [] then none
  else
    let host := String.mk (hostCs.map Char.toLower)
    let mk := fun (port : String) =>
      let (pa, se, ha) := splitPQH pathRest
      some ⟨scheme ++ ":", host, port, pa, se, ha⟩
    match portCs with
    | [] => mk ""
    | _ :: pcs =>
      if pcs = [] then mk ""
      else if pcs.all Char.isDigit then
        let n := pcs.foldl (fun acc c => acc * 10 + (c.toNat - '0'.toNat)) 0
        if n > 65535 then none
        else if (scheme = "http" ∧ n = 80) ∨ (scheme = "https" ∧ n = 443) then mk ""
        else mk (toString n)
      else none

/-- Model of `new URL(u)` for the URL fragment used in this development:
a non-empty all-alphabetic scheme followed by `:`; `http`/`https` URLs
must continue with `//host[:port]...` (hosts are lowercased and default
ports dropped, as the WHATWG parser does); other schemes are kept opaque
(scheme plus remainder as the path), which is all `isValid`/`getDomain`
ever look at for them. -/
def jsParse (s : String) : Option URLRec :=
  let cs := s.data
  let schemeCs := cs.takeWhile (fun c => c ≠ ':')
  let rest := cs.dropWhile (fun c => c ≠ ':')
  if schemeCs = [] ∨ ¬ schemeCs.all isAsciiAlpha then none
  else
    match rest with
    | [] => none
    | _ :: afterColon =>
      let scheme := String.mk (schemeCs.map Char.toLower)
      if scheme = "http" ∨ scheme = "https" then
        match afterColon with
        | '/' :: '/' :: hostRest => parseAfterSlashes scheme hostRest
        | _ => none
      else
        some ⟨scheme ++ ":", "", "", String.mk afterColon, "", ""⟩

/-- Model of `new URL(link, base)` for the fragment used here: a link
with its own scheme is parsed absolutely; otherwise the base must parse
to an `http(s)` URL and the link is resolved against it
(scheme-relative `//...`, absolute path `/...`, query-only `?...`,
fragment-only `#...`, empty, or a relative path merged onto the base
directory; dot-segments are not normalized and do not occur in the
inputs used here). -/
def jsResolve (link base : String) : Option URLRec :=
  let lcs := link.data
  let pre := lcs.takeWhile (fun c => c ≠ ':')
  let post := lcs.dropWhile (fun c => c ≠ ':')
  if pre ≠ [] ∧ pre.all isAsciiAlpha ∧ post ≠ [] then jsParse link
  else
    match jsParse base with
    | none => none
    | some b =>
      if ¬ (b.protocol = "http:" ∨ b.protocol = "https:") then none
      else
        match lcs with
        | [] => some { b with hashFrag := "" }
        | '/' :: '/' :: rest2 => parseAfterSlashes (b.protocol.dropRight 1) rest2
        | '/' :: _ =>
          let (pa, se, ha) := splitPQH lcs
          some { b with pathname := pa, search := se, hashFrag := ha }
        | '?' :: t =>
          let q := t.takeWhile (fun c => c ≠ '#')
          let h := t.dropWhile (fun c => c ≠ '#')
          some { b with
                  search := if q = [] then "" else String.mk ('?' :: q),
                  hashFrag := if h = [] ∨ h = ['#'] then "" else String.mk h }
        | '#' :: t => some { b with hashFrag := if t = [] then "" else String.mk lcs }
        | _ =>
          let bp := b.pathname.data
          let dir := (bp.reverse.dropWhile (fun c => c ≠ '/')).reverse
          let dir := if dir = [] then ['/'] else dir
          let (pa, se, ha) := splitPQH (dir ++ lcs)
          some { b with pathname := pa, search := se, hashFrag := ha }

/-- Model of `URL#toString`. -/
def jsSerialize (r : URLRec) : String :=
  if r.protocol = "http:" ∨ r.protocol = "https:" then
    r.protocol ++ "//" ++ r.hostname ++
      (if r.port = "" then "" else ":" ++ r.port) ++
      r.pathname ++ r.search ++ r.hashFrag
  else r.protocol ++ r.pathname ++ r.search ++ r.hashFrag

/-- The concrete URL model backing witnesses and counterexamples. -/
def jsURL : URLModel := ⟨jsParse, jsResolve, jsSerialize⟩

/-! ## Link discovery (`src/crawler/link-discovery.ts`) -/

/-- The loop of `discoverLinks`, with the mutable `discoveredLinks` array
(`acc`) and `seenLinks` set (`seen`) as accumulators.  Each raw link is
resolved against the base (`new URL(link, baseURL)`, a failure being the
caught exception), serialized, rejected if not a valid http(s) URL, and
kept iff the cross-domain policy admits it and it was not already seen. -/
def discoverGo (M : URLModel) (baseDomain baseURL : String) (crossDomain : Bool) :
    List String → List String → List String → List String
  | [], _, acc => acc
  | link :: rest, seen, acc =>
    match M.resolve link baseURL with
    | none => discoverGo M baseDomain baseURL crossDomain rest seen acc
    | some absoluteURL =>
      let absoluteURLString := M.serialize absoluteURL
      if !(isValid M absoluteURLString) then
        discoverGo M baseDomain baseURL crossDomain rest seen acc
      else
        let linkDomain := getDomain M absoluteURLString
        if (crossDomain || linkDomain == baseDomain) &&
            !(seen.contains absoluteURLString) then
          discoverGo M baseDomain baseURL crossDomain rest
            (absoluteURLString :: seen) (acc ++ [absoluteURLString])
        else
          discoverGo M baseDomain baseURL crossDomain rest seen acc

/-- Embedding of `discoverLinks` from `src/crawler/link-discovery.ts`. -/
def discoverLinks (M : URLModel) (links : List String)
    (baseDomain baseURL : String) (crossDomain : Bool) : List String :=
  discoverGo M baseDomain baseURL crossDomain links [] []

/-- First-occurrence deduplication with the set of already-seen elements
explicit — the `Set`-and-push idiom `discoverLinks` and `extract` both
use. -/
def dedupGo : List String → List String → List String
  | [], _ => []
  | x :: xs, seen =>
    if seen.contains x then dedupGo xs seen
    else x :: dedupGo xs (x :: seen)

/-- Keep the first occurrence of every element, preserving order. -/
def dedupFirst (l : List String) : List String := dedupGo l []

/-- The per-link admissibility step of §4.1 of the spec: resolve the raw
link against the base, discard a resolution failure or a non-http(s)
result, and keep the resolved URL string iff `crossDomain` is true or
its host equals `baseDomain` exactly. -/
def admitStep (M : URLModel) (baseDomain baseURL : String) (crossDomain : Bool)
    (link : String) : Option String :=
  match M.resolve link baseURL with
  | none => none
  | some r =>
    let s := M.serialize r
    if isValid M s && (crossDomain || getDomain M s == baseDomain) then some s
    else none

/-- Spec-side description of link discovery, following §4.1 of the spec:
resolve each raw link against the base, discard resolution failures and
non-http(s) results, keep a resolved URL iff `crossDomain` is true or
its host equals `baseDomain` exactly, and keep only the first occurrence
of each resolved URL string, in first-seen order. -/
def discoverLinksSpec (M : URLModel) (links : List String)
    (baseDomain baseURL : String) (crossDomain : Bool) : List String :=
  dedupFirst (links.filterMap (admitStep M baseDomain baseURL crossDomain))

/-! ## Email extractor (`src/extractors/email-extractor.ts`)

`extract` matches the global regex

`EMAIL_PATTERN = /\b[a-zA-Z0-9][a-zA-Z0-9._+-]*[a-zA-Z0-9]@[a-zA-Z0-9][a-zA-Z0-9.-]*\.[a-zA-Z]{2,}\b/g`

against the text, filters the matches through `isValidEmail`, and
deduplicates keeping first occurrences.  The matcher below implements
this one pattern with JavaScript regex semantics: leftmost scan, greedy
stars with backtracking, and `\b` word boundaries (`\w = [A-Za-z0-9_]`).
For the final `[a-zA-Z]{2,}\b`, greedy backtracking can only succeed by
consuming the entire alphabetic run (any shorter cut is followed by a
letter, which is a word character), so it is implemented directly that
way. -/

/-- The class `[a-zA-Z0-9]`. -/
def isAlnum (c : Char) : Bool :=
  isAsciiAlpha c || c.isDigit

/-- The class `[a-zA-Z0-9._+-]` — the local-part star of `EMAIL_PATTERN`. -/
def isLocalChar (c : Char) : Bool :=
  isAlnum c || c == '.' || c == '_' || c == '+' || c == '-'

/-- The class `[a-zA-Z0-9.-]` — the domain star of `EMAIL_PATTERN`. -/
def isDomainChar (c : Char) : Bool :=
  isAlnum c || c == '.' || c == '-'

/-- The class `\w`, the JavaScript word-character class. -/
def isWordChar (c : Char) : Bool :=
  isAlnum c || c == '_'

/-- All ways a greedy star over `p` can split `l` into a consumed prefix
(every char satisfying `p`) and the rest, longest prefix first — the
order in which a backtracking greedy star offers them. -/
def prefixesDesc (p : Char → Bool) : List Char → List (List Char × List Char)
  | [] => [([], [])]
  | c :: cs =>
    if p c then
      ((prefixesDesc p cs).map (fun pr => (c :: pr.1, pr.2))) ++ [([], c :: cs)]
    else [([], c :: cs)]

/-- First successful alternative, in order — the backtracking search. -/
def firstSome (f : α → Option β) : List α → Option β
  | [] => none
  | x :: xs =>
    match f x with
    | some y => some y
    | none => firstSome f xs

/-- The boundary `\b` looking at what follows a word character: end of input or a
non-word character. -/
def boundaryAfter : List Char → Bool
  | [] => true
  | c :: _ => !(isWordChar c)

/-- Match `[a-zA-Z0-9][a-zA-Z0-9.-]*\.[a-zA-Z]{2,}\b` (the domain part of
`EMAIL_PATTERN`) at the head of `l`, returning the matched characters and
the rest. -/
def matchDomain (l : List Char) : Option (List Char × List Char) :=
  match l with
  | [] => none
  | a :: rest =>
    if isAlnum a then
      firstSome
        (fun pr =>
          match pr.2 with
          | c :: r2 =>
            let trun := r2.takeWhile isAsciiAlpha
            let after := r2.drop trun.length
            if c == '.' && decide (2 ≤ trun.length) && boundaryAfter after then
              some (a :: pr.1 ++ '.' :: trun, after)
            else none
          | [] => none)
        (prefixesDesc isDomainChar rest)
    else none

/-- Match the whole `EMAIL_PATTERN` at the head of `l` (the `\b` before
the first character is the caller's responsibility), returning the
matched characters and the rest. -/
def matchAt (l : List Char) : Option (List Char × List Char) :=
  match l with
  | [] => none
  | c0 :: rest =>
    if isAlnum c0 then
      firstSome
        (fun pr =>
          match pr.2 with
          | a :: c :: r2 =>
            if isAlnum a && (c == '@') then
              match matchDomain r2 with
              | some dr => some (c0 :: pr.1 ++ a :: '@' :: dr.1, dr.2)
              | none => none
            else none
          | _ => none)
        (prefixesDesc isLocalChar rest)
    else none

/-- The scan of `text.match(EMAIL_PATTERN)` with the `g` flag: try the
pattern at every position (with the leading `\b` requiring the previous
character, if any, to be a non-word character), collect non-overlapping
matches left to right. -/
def scanEmails : Nat → Option Char → List Char → List (List Char)
  | 0, _, _ => []
  | _ + 1, _, [] => []
  | fuel + 1, prev, c :: cs =>
    if (match prev with | none => true | some p => !(isWordChar p)) then
      match matchAt (c :: cs) with
      | some (m, rest) => m :: scanEmails fuel (m.getLastD c) rest
      | none => scanEmails fuel (some c) cs
    else scanEmails fuel (some c) cs

/-- Embedding of `isValidEmail` from `src/extractors/email-extractor.ts`,
check for check.  (`email.split('@')` is `splitOn "@"`; the local-part
and domain character regexes are the `all` tests; `tld` is the last
piece of `domain.split('.')`.) -/
def hasDoubleDot : List Char → Bool
  | a :: b :: rest => (a == '.' && b == '.') || hasDoubleDot (b :: rest)
  | _ => false

def isValidEmail (email : String) : Bool :=
  if email = "" then false
  else
    let parts := splitOnChar '@' email.data
    if parts.length ≠ 2 then false
    else
      let localPart := parts.getD 0 []
      let domain := parts.getD 1 []
      if localPart.length = 0 ∨ localPart.length > 64 then false
      else if localPart.head? == some '.' || localPart.getLast? == some '.' then false
      else if hasDoubleDot localPart then false
      else if ¬ localPart.all isLocalChar then false
      else if domain.length = 0 ∨ domain.length > 255 then false
      else if (splitOnChar '.' domain).length = 1 then false
      else if domain.head? == some '.' || domain.getLast? == some '.' ||
              domain.head? == some '-' || domain.getLast? == some '-' then false
      else if hasDoubleDot domain then false
      else if ¬ domain.all isDomainChar then false
      else
        let tld := (splitOnChar '.' domain).getLastD []
        if tld.length < 2 ∨ ¬ (tld ≠ [] ∧ tld.all isAsciiAlpha) then false
        else true

/-- Embedding of `extract` from `src/extractors/email-extractor.ts`:
match `EMAIL_PATTERN` globally, filter through `isValidEmail`, and
deduplicate keeping the first occurrence of each address
(`Array.from(new Set(...))` preserves insertion order). -/
def extract (text : String) : List String :=
  if text = "" then []
  else
    let found := (scanEmails (text.length + 1) none text.data).map String.mk
    dedupFirst (found.filter isValidEmail)

/-! ## Crawler engine (`src/crawler/crawler-engine.ts`)

The engine's collaborators are injected: the HTTP client (`httpClient.fetch`,
which may throw — modelled as `Except`) and the HTML parser (`parse`, which
may throw).  The loop is embedded with an explicit fuel argument; the fuel
passed by `crawl` is proved sufficient (`crawlLoop_terminates`), so the
embedding computes exactly what the source's `while` loop computes.  A ghost
trace of events (dequeue outcomes and enqueues) records the decisions the
loop makes; it affects nothing the loop computes. -/

/-- Embedding of `HTTPResponse` from `src/client/http-client.ts` as the engine consumes
it: status, body, and optional error (an `Option.isSome` error field is
the truthy `response.error`). -/
structure HTTPResponse where
  status : Nat
  body : String
  error : Option String
deriving DecidableEq, Repr

/-- Embedding of `ParsedHTML` from `src/parsers/html-parser.ts`. -/
structure ParsedHTML where
  textContent : String
  links : List String
deriving DecidableEq, Repr

/-- The injected collaborators of the engine: `fetch` models
`httpClient.fetch` (`Except.error` is a thrown exception, caught by the
engine) and `parse` models `parse` from the HTML parser (`Except.error`
is a parse exception, also caught). -/
structure CrawlEnv where
  fetch : String → Except String HTTPResponse
  parse : String → Except String ParsedHTML

/-- Embedding of `ExtractionResult` from `src/output/csv-writer.ts`. -/
structure ExtractionResult where
  email : String
  sourceURL : String
deriving DecidableEq, Repr

/-- Embedding of `QueueItem` from `src/crawler/crawler-engine.ts`. -/
structure QueueItem where
  url : String
  depth : Nat
deriving DecidableEq, Repr

/-- Ghost trace events: `visit u d` is the iteration that marks `u`
visited, increments `pagesVisited` and fetches `u`; `skipVisited` /
`skipDepth` are the two discard branches at dequeue; `enq u d` records a
link pushed onto the queue at depth `d`. -/
inductive Event where
  | visit (url : String) (depth : Nat)
  | skipVisited (url : String) (depth : Nat)
  | skipDepth (url : String) (depth : Nat)
  | enq (url : String) (depth : Nat)
deriving DecidableEq, Repr

/-- The observable outcome of the crawl loop: the ghost trace, the
results array, and the final state (queue, visited set as a list,
`pagesVisited`). -/
structure LoopOut where
  trace : List Event
  results : List ExtractionResult
  finalQueue : List QueueItem
  finalVisited : List String
  finalPages : Nat
deriving DecidableEq, Repr

/-- The enqueue loop of `crawl` (`crawler-engine.ts` lines 158-174):
normalize each discovered link and push it at depth `d` iff it is not in
`visited` and the live queue length is below 1000.  Returns the new
queue and the enqueue events. -/
def enqueueAll (M : URLModel) (visited : List String) (d : Nat) :
    List QueueItem → List String → List QueueItem × List Event
  | queue, [] => (queue, [])
  | queue, link :: restLinks =>
    let normalizedLink := normalizeURL M link
    if !(visited.contains normalizedLink) && queue.length < 1000 then
      let out := enqueueAll M visited d (queue ++ [⟨normalizedLink, d⟩]) restLinks
      (out.1, .enq normalizedLink d :: out.2)
    else
      enqueueAll M visited d queue restLinks

/-- The per-page part of one loop iteration, after the item has been
marked visited (`crawler-engine.ts` lines 93-182): fetch (a thrown
error skips the page), skip on truthy `error` or non-2xx status, parse
and extract (a thrown error skips the page), append one result per
extracted email, and — only when `item.depth < maxDepth` — discover
links and enqueue them.  Returns the new results, the new queue, and
the enqueue events. -/
def processPage (M : URLModel) (env : CrawlEnv) (baseDomain : String)
    (crossDomain : Bool) (maxDepth : Nat) (item : QueueItem)
    (rest : List QueueItem) (visited : List String)
    (results : List ExtractionResult) :
    List ExtractionResult × List QueueItem × List Event :=
  match env.fetch item.url with
  | .error _ => (results, rest, [])
  | .ok response =>
    if response.error.isSome || decide (response.status < 200) ||
        decide (300 ≤ response.status) then
      (results, rest, [])
    else
      match env.parse response.body with
      | .error _ => (results, rest, [])
      | .ok parsed =>
        let emails := extract parsed.textContent
        let newResults := results ++ emails.map (fun e => ⟨e, item.url⟩)
        if item.depth < maxDepth then
          let newLinks := discoverLinks M parsed.links baseDomain item.url crossDomain
          let out := enqueueAll M visited (item.depth + 1) rest newLinks
          (newResults, out.1, out.2)
        else (newResults, rest, [])

/-- The `while` loop of `crawl` (`crawler-engine.ts` lines 71-193), with
fuel.  Loop condition: queue non-empty and `pagesVisited < maxPages`.
Each iteration dequeues the front item, discards it if already visited
or beyond `maxDepth`, and otherwise marks it visited, increments the
page counter, and processes the page. -/
def crawlLoop (M : URLModel) (env : CrawlEnv) (baseDomain : String)
    (crossDomain : Bool) (maxDepth maxPages : Nat) :
    Nat → List QueueItem → List String → List ExtractionResult → Nat → LoopOut
  | 0, queue, visited, results, pages => ⟨[], results, queue, visited, pages⟩
  | _ + 1, [], visited, results, pages => ⟨[], results, [], visited, pages⟩
  | fuel + 1, item :: rest, visited, results, pages =>
    if maxPages ≤ pages then ⟨[], results, item :: rest, visited, pages⟩
    else if visited.contains item.url then
      let o := crawlLoop M env baseDomain crossDomain maxDepth maxPages
        fuel rest visited results pages
      ⟨.skipVisited item.url item.depth :: o.trace, o.results,
        o.finalQueue, o.finalVisited, o.finalPages⟩
    else if maxDepth < item.depth then
      let o := crawlLoop M env baseDomain crossDomain maxDepth maxPages
        fuel rest visited results pages
      ⟨.skipDepth item.url item.depth :: o.trace, o.results,
        o.finalQueue, o.finalVisited, o.finalPages⟩
    else
      let visited' := item.url :: visited
      let step := processPage M env baseDomain crossDomain maxDepth item rest
        visited' results
      let o := crawlLoop M env baseDomain crossDomain maxDepth maxPages
        fuel step.2.1 visited' step.1 (pages + 1)
      ⟨.visit item.url item.depth :: (step.2.2 ++ o.trace), o.results,
        o.finalQueue, o.finalVisited, o.finalPages⟩

/-- The two fatal errors of `crawl` (`crawler-engine.ts` lines 47-59):
`Invalid URL: ...` and `Could not extract domain from URL: ...`. -/
inductive CrawlError where
  | invalidSeedURL (url : String)
  | domainExtractionFailure (url : String)
deriving DecidableEq, Repr

/-- Embedding of `CrawlerEngineImpl.crawl`: validate the seed, normalize
it, derive the base domain (empty string is the falsy failure), and run
the loop from a singleton queue at depth 0 with fresh state.  The fuel
`1 + 1001 * maxPages + 1` dominates the loop measure
(`queue.length + 1001 * (maxPages - pages)`, see `crawlLoop_terminates`). -/
def crawl (M : URLModel) (env : CrawlEnv) (startURL : String)
    (maxDepth : Nat) (crossDomain : Bool) (maxPages : Nat) :
    Except CrawlError LoopOut :=
  if ¬ isValid M startURL then .error (.invalidSeedURL startURL)
  else if getDomain M (normalizeURL M startURL) = "" then
    .error (.domainExtractionFailure startURL)
  else
    .ok (crawlLoop M env (getDomain M (normalizeURL M startURL)) crossDomain
      maxDepth maxPages (1 + 1001 * maxPages + 1)
      [⟨normalizeURL M startURL, 0⟩] [] [] 0)

/-! ## Trace observations -/

/-- URLs fetched by the crawl, in order (one per `visit` event). -/
def visitURLs (t : List Event) : List String :=
  t.filterMap fun e =>
    match e with
    | .visit u _ => some u
    | _ => none

/-- Depths of dequeued items, in dequeue order (every iteration emits
exactly one `visit`/`skipVisited`/`skipDepth` event for the item it
dequeues). -/
def dequeuedDepths (t : List Event) : List Nat :=
  t.filterMap fun e =>
    match e with
    | .visit _ d => some d
    | .skipVisited _ d => some d
    | .skipDepth _ d => some d
    | .enq _ _ => none

/-- The visited-once discipline over a trace, relative to the list `F` of
URLs fetched so far: a URL is fetched only if never fetched before, a URL
is enqueued only if never fetched before, and the `skipVisited` discard
fires exactly on URLs fetched before (hence such an item is dropped at
dequeue without a fetch). -/
def visitedOnceOK (F : List String) : List Event → Prop
  | [] => True
  | .visit u _ :: t => u ∉ F ∧ visitedOnceOK (u :: F) t
  | .skipVisited u _ :: t => u ∈ F ∧ visitedOnceOK F t
  | .skipDepth _ _ :: t => visitedOnceOK F t
  | .enq u _ :: t => u ∉ F ∧ visitedOnceOK F t

/-- The breadth-first enqueue discipline over a trace, relative to the
depth `cur` of the most recent `visit`: every `enq` event carries depth
exactly one greater than the page it was discovered on. -/
def enqDepthOK (cur : Option Nat) : List Event → Prop
  | [] => True
  | .visit _ d :: t => enqDepthOK (some d) t
  | .enq _ d :: t => (∃ k, cur = some k ∧ d = k + 1) ∧ enqDepthOK cur t
  | _ :: t => enqDepthOK cur t

/-- Queue shape invariant maintained by the loop: depths are
nondecreasing front to back, and any two pending depths differ by at
most one. -/
def DepthOK (q : List QueueItem) : Prop :=
  (q.map QueueItem.depth).Sorted (· ≤ ·) ∧
    ∀ a ∈ q, ∀ b ∈ q, a.depth ≤ b.depth + 1

/-- The page-local failure modes of one loop iteration
(`crawler-engine.ts` lines 93-130): the fetch throws, the response
carries a truthy `error` or a non-2xx status, or parsing the body
throws. -/
def pageFails (env : CrawlEnv) (u : String) : Prop :=
  (∃ e, env.fetch u = .error e) ∨
  (∃ r, env.fetch u = .ok r ∧
    (r.error.isSome || decide (r.status < 200) || decide (300 ≤ r.status)) = true) ∨
  (∃ r e, env.fetch u = .ok r ∧
    (r.error.isSome || decide (r.status < 200) || decide (300 ≤ r.status)) = false ∧
    env.parse r.body = .error e)

/-- The implicit minimum shape of an extracted address's local part: at
least two characters, the first and last of them alphanumeric (the local
part of `e` being everything before the first `@`). -/
def localPartOK (e : String) : Bool :=
  let lp := e.data.takeWhile (fun c => c != '@')
  decide (2 ≤ lp.length) &&
    (match lp.head? with | some c => isAlnum c | none => false) &&
    (match lp.getLast? with | some c => isAlnum c | none => false)

/-! ## Concrete fixture used by witnesses

A tiny site on `site.test`: the root page carries one email address and
links (with a duplicate and a cross-domain link), page `/a` links back to
the seed and to an unreachable page, `/bad` answers HTTP 500, and
everything else fails at the network layer. -/

def demoEnv : CrawlEnv where
  fetch u :=
    if u = "http://site.test/" then .ok ⟨200, "root", none⟩
    else if u = "http://site.test/a" then .ok ⟨200, "pageA", none⟩
    else if u = "http://site.test/bad" then .ok ⟨500, "", none⟩
    else .error "connection refused"
  parse body :=
    if body = "root" then
      .ok ⟨"Contact info@site.test here",
           ["/a", "/bad", "/a", "http://other.test/x"]⟩
    else if body = "pageA" then .ok ⟨"", ["/", "/b"]⟩
    else .ok ⟨"", []⟩

/-- A depth-2 crawl of the fixture site. -/
def demoCrawl : Except CrawlError LoopOut :=
  crawl jsURL demoEnv "http://site.test" 2 false 10

/-- Its successful outcome. -/
def demoOut : LoopOut :=
  match demoCrawl with
  | .ok o => o
  | .error _ => ⟨[], [], [], [], 0⟩

/-- A depth-0 crawl of the fixture site. -/
def demo0Crawl : Except CrawlError LoopOut :=
  crawl jsURL demoEnv "http://site.test" 0 false 10

/-- Its successful outcome. -/
def demo0Out : LoopOut :=
  match demo0Crawl with
  | .ok o => o
  | .error _ => ⟨[], [], [], [], 0⟩

/-- A degenerate URL model whose parser accepts everything as an
`http:` URL with an empty host — it exercises the domain-extraction
failure branch of `crawl`, which the WHATWG parser itself can never
reach (it rejects `http://` URLs with empty hosts). -/
def emptyHostURL : URLModel where
  parse s := some ⟨"http:", "", "", s, "", ""⟩
  resolve _ _ := none
  serialize r := r.pathname

/-! ## Link-discovery lemmas -/

theorem mem_dedupGo :
    ∀ (l seen : List String) (x : String),
      x ∈ dedupGo l seen ↔ x ∈ l ∧ x ∉ seen
  | [], seen, x => by simp [dedupGo]
  | y :: ys, seen, x => by
    rw [dedupGo]
    by_cases hy : seen.contains y
    · rw [if_pos hy, mem_dedupGo ys seen x]
      constructor
      · rintro ⟨hx, hns⟩
        exact ⟨List.mem_cons_of_mem _ hx, hns⟩
      · rintro ⟨hx, hns⟩
        rcases List.mem_cons.1 hx with rfl | hx
        · exact absurd (List.elem_iff.mp hy) hns
        · exact ⟨hx, hns⟩
    · rw [if_neg hy]
      constructor
      · intro hx
        rcases List.mem_cons.1 hx with rfl | hx
        · exact ⟨List.mem_cons_self _ _, fun hxs => hy (List.elem_iff.mpr hxs)⟩
        · obtain ⟨h1, h2⟩ := (mem_dedupGo ys (y :: seen) x).1 hx
          exact ⟨List.mem_cons_of_mem _ h1,
            fun hxs => h2 (List.mem_cons_of_mem _ hxs)⟩
      · rintro ⟨hx, hns⟩
        rcases List.mem_cons.1 hx with rfl | hx
        · exact List.mem_cons_self _ _
        · by_cases hxy : x = y
          · subst hxy
            exact List.mem_cons_self _ _
          · refine List.mem_cons_of_mem _ ((mem_dedupGo ys (y :: seen) x).2
              ⟨hx, fun hm => ?_⟩)
            rcases List.mem_cons.1 hm with h | h
            · exact hxy h
            · exact hns h

theorem mem_dedupFirst (l : List String) (x : String) :
    x ∈ dedupFirst l ↔ x ∈ l := by
  rw [dedupFirst, mem_dedupGo]
  simp

theorem dedupGo_nodup : ∀ (l seen : List String), (dedupGo l seen).Nodup
  | [], seen => by simp [dedupGo]
  | y :: ys, seen => by
    rw [dedupGo]
    by_cases hy : seen.contains y
    · rw [if_pos hy]
      exact dedupGo_nodup ys seen
    · rw [if_neg hy]
      refine List.nodup_cons.mpr ⟨fun hmem => ?_, dedupGo_nodup ys (y :: seen)⟩
      exact ((mem_dedupGo ys (y :: seen) y).1 hmem).2 (List.mem_cons_self _ _)

theorem dedupFirst_nodup (l : List String) : (dedupFirst l).Nodup :=
  dedupGo_nodup l []

/-- The loop of `discoverLinks` computes exactly the spec-side
"admissible links, deduplicated keeping first occurrences" — generalized
over the two accumulators. -/
theorem discoverGo_eq (M : URLModel) (bd base : String) (cross : Bool) :
    ∀ (links seen acc : List String),
      discoverGo M bd base cross links seen acc =
        acc ++ dedupGo (links.filterMap (admitStep M bd base cross)) seen
  | [], seen, acc => by simp [discoverGo, dedupGo]
  | link :: rest, seen, acc => by
    match hres : M.resolve link base with
    | none =>
      rw [discoverGo, hres, discoverGo_eq M bd base cross rest seen acc]
      have hadm : admitStep M bd base cross link = none := by rw [admitStep, hres]
      simp [List.filterMap_cons, hadm]
    | some r =>
      match hv : isValid M (M.serialize r) with
      | false =>
        have hadm : admitStep M bd base cross link = none := by
          rw [admitStep, hres]
          simp [hv]
        rw [discoverGo, hres]
        simp only [hv, Bool.not_false, if_pos]
        rw [discoverGo_eq M bd base cross rest seen acc]
        simp [List.filterMap_cons, hadm]
      | true =>
        match hp : (cross || getDomain M (M.serialize r) == bd) with
        | false =>
          have hadm : admitStep M bd base cross link = none := by
            rw [admitStep, hres]
            simp [hv, hp]
          rw [discoverGo, hres]
          simp only [hv, hp, Bool.not_true, Bool.false_and, Bool.false_eq_true,
            not_false_eq_true, if_false]
          rw [discoverGo_eq M bd base cross rest seen acc]
          simp [List.filterMap_cons, hadm]
        | true =>
          have hadm : admitStep M bd base cross link = some (M.serialize r) := by
            rw [admitStep, hres]
            simp [hv, hp]
          match hs : seen.contains (M.serialize r) with
          | true =>
            have hs' : M.serialize r ∈ seen := List.elem_iff.mp hs
            rw [discoverGo, hres]
            simp only [hv, hp, hs, Bool.not_true, Bool.true_and, Bool.and_false,
              Bool.false_eq_true, not_false_eq_true, if_false]
            rw [discoverGo_eq M bd base cross rest seen acc]
            simp [List.filterMap_cons, hadm, dedupGo, hs']
          | false =>
            have hs' : M.serialize r ∉ seen := fun hm => by
              have hc : seen.contains (M.serialize r) = true := List.elem_iff.mpr hm
              rw [hs] at hc
              exact Bool.false_ne_true hc
            rw [discoverGo, hres]
            simp only [hv, hp, hs, Bool.not_true, Bool.not_false, Bool.true_and,
              Bool.and_true, Bool.false_eq_true, not_false_eq_true, if_false, if_true]
            rw [discoverGo_eq M bd base cross rest
              (M.serialize r :: seen) (acc ++ [M.serialize r])]
            simp [List.filterMap_cons, hadm, dedupGo, hs']

/-- The function `discoverLinks` coincides with its spec-side description. -/
theorem discoverLinks_eq_spec (M : URLModel) (links : List String)
    (bd base : String) (cross : Bool) :
    discoverLinks M links bd base cross = discoverLinksSpec M links bd base cross := by
  rw [discoverLinks, discoverGo_eq, discoverLinksSpec, dedupFirst]
  simp

/-! ## Lemmas about the enqueue step -/

theorem enqueueAll_spec (M : URLModel) (visited : List String) (d : Nat) :
    ∀ (links : List String) (queue : List QueueItem),
      ∃ added,
        (enqueueAll M visited d queue links).1 = queue ++ added ∧
        (∀ x ∈ added, x.depth = d) ∧
        (enqueueAll M visited d queue links).1.length ≤ max queue.length 1000 ∧
        (∀ e ∈ (enqueueAll M visited d queue links).2,
          ∃ u, e = Event.enq u d ∧ visited.contains u = false)
  | [], queue => ⟨[], by simp [enqueueAll]⟩
  | link :: restLinks, queue => by
    by_cases hc : (!(visited.contains (normalizeURL M link)) &&
        decide (queue.length < 1000)) = true
    · have hnc : visited.contains (normalizeURL M link) = false := by
        have := (Bool.and_eq_true _ _).mp hc
        simpa using this.1
      have hlt : queue.length < 1000 := by
        have := (Bool.and_eq_true _ _).mp hc
        simpa using this.2
      obtain ⟨added, hq, hd, hlen, hev⟩ :=
        enqueueAll_spec M visited d restLinks (queue ++ [⟨normalizeURL M link, d⟩])
      rw [enqueueAll, if_pos hc]
      refine ⟨⟨normalizeURL M link, d⟩ :: added, ?_, ?_, ?_, ?_⟩
      · show (enqueueAll M visited d
            (queue ++ [⟨normalizeURL M link, d⟩]) restLinks).1 = _
        rw [hq]
        simp
      · intro x hx
        rcases List.mem_cons.1 hx with rfl | hx
        · rfl
        · exact hd x hx
      · show (enqueueAll M visited d
            (queue ++ [⟨normalizeURL M link, d⟩]) restLinks).1.length ≤ _
        have h1 : (queue ++ [(⟨normalizeURL M link, d⟩ : QueueItem)]).length =
            queue.length + 1 := by simp
        omega
      · intro e he
        have he' : e ∈ Event.enq (normalizeURL M link) d ::
            (enqueueAll M visited d
              (queue ++ [⟨normalizeURL M link, d⟩]) restLinks).2 := he
        rcases List.mem_cons.1 he' with rfl | he''
        · exact ⟨normalizeURL M link, rfl, hnc⟩
        · exact hev e he''
    · obtain ⟨added, hq, hd, hlen, hev⟩ :=
        enqueueAll_spec M visited d restLinks queue
      rw [enqueueAll, if_neg hc]
      exact ⟨added, hq, hd, hlen, hev⟩

/-! ## Lemmas about the per-page step -/

theorem processPage_spec (M : URLModel) (env : CrawlEnv) (bd : String)
    (cross : Bool) (mdep : Nat) (item : QueueItem) (rest : List QueueItem)
    (visited : List String) (results : List ExtractionResult) :
    ∃ added,
      (processPage M env bd cross mdep item rest visited results).2.1 =
        rest ++ added ∧
      (∀ x ∈ added, x.depth = item.depth + 1) ∧
      (processPage M env bd cross mdep item rest visited results).2.1.length ≤
        max rest.length 1000 ∧
      (∀ e ∈ (processPage M env bd cross mdep item rest visited results).2.2,
        ∃ u, e = Event.enq u (item.depth + 1) ∧ visited.contains u = false ∧
          item.depth < mdep) ∧
      (¬ item.depth < mdep →
        (processPage M env bd cross mdep item rest visited results).2.1 = rest ∧
        (processPage M env bd cross mdep item rest visited results).2.2 = []) := by
  have hrest : (rest.length ≤ max rest.length 1000) := le_max_left _ _
  cases hf : env.fetch item.url with
  | error e =>
    refine ⟨[], ?_, by simp, ?_, ?_, ?_⟩ <;> simp [processPage, hf]
  | ok response =>
    by_cases hr : (response.error.isSome || decide (response.status < 200) ||
        decide (300 ≤ response.status)) = true
    · refine ⟨[], ?_, by simp, ?_, ?_, ?_⟩ <;> simp [processPage, hf, hr]
    · cases hp : env.parse response.body with
      | error e =>
        refine ⟨[], ?_, by simp, ?_, ?_, ?_⟩ <;> simp [processPage, hf, hr, hp]
      | ok parsed =>
        by_cases hd : item.depth < mdep
        · obtain ⟨added, hq, hdep, hlen, hev⟩ :=
            enqueueAll_spec M visited (item.depth + 1)
              (discoverLinks M parsed.links bd item.url cross) rest
          refine ⟨added, ?_, hdep, ?_, ?_, fun hcon => absurd hd hcon⟩
          · simpa [processPage, hf, hr, hp, hd] using hq
          · simpa [processPage, hf, hr, hp, hd] using hlen
          · intro e he
            have he' : e ∈ (enqueueAll M visited (item.depth + 1) rest
                (discoverLinks M parsed.links bd item.url cross)).2 := by
              simpa [processPage, hf, hr, hp, hd] using he
            exact (hev e he').imp fun u hu => ⟨hu.1, hu.2, hd⟩
        · refine ⟨[], ?_, by simp, ?_, ?_, fun _ => ⟨?_, ?_⟩⟩ <;>
            simp [processPage, hf, hr, hp, hd]

/-! ## Trace helpers -/

theorem visitURLs_append (s t : List Event) :
    visitURLs (s ++ t) = visitURLs s ++ visitURLs t := by
  simp [visitURLs, List.filterMap_append]

theorem dequeuedDepths_append (s t : List Event) :
    dequeuedDepths (s ++ t) = dequeuedDepths s ++ dequeuedDepths t := by
  simp [dequeuedDepths, List.filterMap_append]

theorem visitURLs_of_enqs (evs : List Event)
    (h : ∀ e ∈ evs, ∃ u d, e = Event.enq u d) : visitURLs evs = [] := by
  induction evs with
  | nil => rfl
  | cons e es ih =>
    obtain ⟨u, d, rfl⟩ := h e (List.mem_cons_self _ _)
    simpa [visitURLs] using ih fun e' he' => h e' (List.mem_cons_of_mem _ he')

theorem dequeuedDepths_of_enqs (evs : List Event)
    (h : ∀ e ∈ evs, ∃ u d, e = Event.enq u d) : dequeuedDepths evs = [] := by
  induction evs with
  | nil => rfl
  | cons e es ih =>
    obtain ⟨u, d, rfl⟩ := h e (List.mem_cons_self _ _)
    simpa [dequeuedDepths] using ih fun e' he' => h e' (List.mem_cons_of_mem _ he')

theorem visitedOnceOK_append_enqs (F : List String) (evs t : List Event)
    (h : ∀ e ∈ evs, ∃ u d, e = Event.enq u d ∧ u ∉ F)
    (ht : visitedOnceOK F t) : visitedOnceOK F (evs ++ t) := by
  induction evs with
  | nil => simpa
  | cons e es ih =>
    obtain ⟨u, d, rfl, hu⟩ := h e (List.mem_cons_self _ _)
    exact ⟨hu, ih fun e' he' => h e' (List.mem_cons_of_mem _ he')⟩

theorem enqDepthOK_append_enqs (k : Nat) (evs t : List Event)
    (h : ∀ e ∈ evs, ∃ u, e = Event.enq u (k + 1))
    (ht : enqDepthOK (some k) t) : enqDepthOK (some k) (evs ++ t) := by
  induction evs with
  | nil => simpa
  | cons e es ih =>
    obtain ⟨u, rfl⟩ := h e (List.mem_cons_self _ _)
    exact ⟨⟨k, rfl, rfl⟩, ih fun e' he' => h e' (List.mem_cons_of_mem _ he')⟩

/-! ## Loop invariants -/

/-- Visited-once invariant of the loop: starting from visited set `vis`,
the produced trace obeys the visited-once discipline relative to `vis`. -/
theorem crawlLoop_visitedOnce (M : URLModel) (env : CrawlEnv) (bd : String)
    (cross : Bool) (mdep mp : Nat) :
    ∀ (fuel : Nat) (q : List QueueItem) (vis : List String)
      (res : List ExtractionResult) (pg : Nat),
      visitedOnceOK vis
        (crawlLoop M env bd cross mdep mp fuel q vis res pg).trace
  | 0, q, vis, res, pg => trivial
  | _ + 1, [], vis, res, pg => trivial
  | fuel + 1, item :: rest, vis, res, pg => by
    rw [crawlLoop]
    by_cases hpg : mp ≤ pg
    · rw [if_pos hpg]
      trivial
    · rw [if_neg hpg]
      by_cases hv : vis.contains item.url
      · rw [if_pos hv]
        exact ⟨List.elem_iff.mp hv,
          crawlLoop_visitedOnce M env bd cross mdep mp fuel rest vis res pg⟩
      · rw [if_neg hv]
        by_cases hdep : mdep < item.depth
        · rw [if_pos hdep]
          exact crawlLoop_visitedOnce M env bd cross mdep mp fuel rest vis res pg
        · rw [if_neg hdep]
          refine ⟨fun hmem => hv (List.elem_iff.mpr hmem), ?_⟩
          obtain ⟨added, hq, hdp, hlen, hev, hnone⟩ :=
            processPage_spec M env bd cross mdep item rest (item.url :: vis) res
          refine visitedOnceOK_append_enqs _ _ _ ?_ ?_
          · intro e he
            obtain ⟨u, rfl, hu, _⟩ := hev e he
            refine ⟨u, item.depth + 1, rfl, fun hmem => ?_⟩
            have hcontains : (item.url :: vis).contains u = true :=
              List.elem_iff.mpr hmem
            rw [hu] at hcontains
            exact Bool.false_ne_true hcontains
          · exact crawlLoop_visitedOnce M env bd cross mdep mp fuel _
              (item.url :: vis) _ (pg + 1)

/-- Breadth-first enqueue-depth invariant of the loop. -/
theorem crawlLoop_enqDepth (M : URLModel) (env : CrawlEnv) (bd : String)
    (cross : Bool) (mdep mp : Nat) :
    ∀ (fuel : Nat) (q : List QueueItem) (vis : List String)
      (res : List ExtractionResult) (pg : Nat) (cur : Option Nat),
      enqDepthOK cur (crawlLoop M env bd cross mdep mp fuel q vis res pg).trace
  | 0, q, vis, res, pg, cur => trivial
  | _ + 1, [], vis, res, pg, cur => trivial
  | fuel + 1, item :: rest, vis, res, pg, cur => by
    rw [crawlLoop]
    by_cases hpg : mp ≤ pg
    · rw [if_pos hpg]
      trivial
    · rw [if_neg hpg]
      by_cases hv : vis.contains item.url
      · rw [if_pos hv]
        exact crawlLoop_enqDepth M env bd cross mdep mp fuel rest vis res pg cur
      · rw [if_neg hv]
        by_cases hdep : mdep < item.depth
        · rw [if_pos hdep]
          exact crawlLoop_enqDepth M env bd cross mdep mp fuel rest vis res pg cur
        · rw [if_neg hdep]
          obtain ⟨added, hq, hdp, hlen, hev, hnone⟩ :=
            processPage_spec M env bd cross mdep item rest (item.url :: vis) res
          refine enqDepthOK_append_enqs item.depth _ _ ?_ ?_
          · intro e he
            obtain ⟨u, rfl, _, _⟩ := hev e he
            exact ⟨u, rfl⟩
          · exact crawlLoop_enqDepth M env bd cross mdep mp fuel _
              (item.url :: vis) _ (pg + 1) (some item.depth)

theorem sorted_of_const {l : List Nat} {k : Nat} (h : ∀ x ∈ l, x = k) :
    l.Sorted (· ≤ ·) := by
  induction l with
  | nil => exact List.sorted_nil
  | cons x xs ih =>
    refine List.sorted_cons.mpr ⟨fun b hb => ?_, ih fun b hb => h b (List.mem_cons_of_mem _ hb)⟩
    rw [h x (List.mem_cons_self _ _), h b (List.mem_cons_of_mem _ hb)]

theorem DepthOK_tail {item : QueueItem} {rest : List QueueItem}
    (h : DepthOK (item :: rest)) : DepthOK rest :=
  ⟨(List.sorted_cons.mp h.1).2,
   fun a ha b hb => h.2 a (List.mem_cons_of_mem _ ha) b (List.mem_cons_of_mem _ hb)⟩

theorem DepthOK_head_le {item : QueueItem} {rest : List QueueItem}
    (h : DepthOK (item :: rest)) : ∀ b ∈ rest, item.depth ≤ b.depth := by
  intro b hb
  exact (List.sorted_cons.mp h.1).1 _ (List.mem_map_of_mem _ hb)

/-- After dequeuing the front item and enqueuing its children (all at
depth `item.depth + 1`), the queue invariant is preserved and every
pending depth is at least `item.depth`. -/
theorem DepthOK_step {item : QueueItem} {rest added : List QueueItem}
    (h : DepthOK (item :: rest)) (hadd : ∀ x ∈ added, x.depth = item.depth + 1) :
    DepthOK (rest ++ added) ∧ ∀ a ∈ rest ++ added, item.depth ≤ a.depth := by
  have h1 : ∀ b ∈ rest, item.depth ≤ b.depth := DepthOK_head_le h
  have h2 : ∀ a ∈ rest, a.depth ≤ item.depth + 1 := fun a ha =>
    h.2 a (List.mem_cons_of_mem _ ha) item (List.mem_cons_self _ _)
  have hmem : ∀ a ∈ rest ++ added, item.depth ≤ a.depth := by
    intro a ha
    rcases List.mem_append.1 ha with ha | ha
    · exact h1 a ha
    · rw [hadd a ha]
      exact Nat.le_succ _
  refine ⟨⟨?_, ?_⟩, hmem⟩
  · rw [List.map_append]
    refine List.pairwise_append.mpr ⟨(List.sorted_cons.mp h.1).2,
      sorted_of_const (k := item.depth + 1) ?_, ?_⟩
    · intro x hx
      obtain ⟨a, ha, rfl⟩ := List.mem_map.1 hx
      exact hadd a ha
    · intro x hx y hy
      obtain ⟨a, ha, rfl⟩ := List.mem_map.1 hx
      obtain ⟨b, hb, rfl⟩ := List.mem_map.1 hy
      rw [hadd b hb]
      exact h2 a ha
  · intro a ha b hb
    rcases List.mem_append.1 ha with ha | ha <;>
      rcases List.mem_append.1 hb with hb | hb
    · exact h.2 a (List.mem_cons_of_mem _ ha) b (List.mem_cons_of_mem _ hb)
    · rw [hadd b hb]
      exact le_trans (h2 a ha) (Nat.le_succ _)
    · rw [hadd a ha]
      exact Nat.succ_le_succ (h1 b hb)
    · rw [hadd a ha, hadd b hb]
      exact Nat.le_succ _

/-- BFS dequeue-order invariant of the loop: if the pending queue
satisfies `DepthOK`, the dequeued depths in the trace are nondecreasing,
and each of them is bounded below by some pending depth. -/
theorem crawlLoop_sorted (M : URLModel) (env : CrawlEnv) (bd : String)
    (cross : Bool) (mdep mp : Nat) :
    ∀ (fuel : Nat) (q : List QueueItem) (vis : List String)
      (res : List ExtractionResult) (pg : Nat), DepthOK q →
      (dequeuedDepths (crawlLoop M env bd cross mdep mp fuel q vis res pg).trace).Sorted
          (· ≤ ·) ∧
      (∀ d ∈ dequeuedDepths
          (crawlLoop M env bd cross mdep mp fuel q vis res pg).trace,
        ∃ a ∈ q, a.depth ≤ d)
  | 0, q, vis, res, pg, _ => by
    constructor <;> simp [crawlLoop, dequeuedDepths]
  | _ + 1, [], vis, res, pg, _ => by
    constructor <;> simp [crawlLoop, dequeuedDepths]
  | fuel + 1, item :: rest, vis, res, pg, hok => by
    rw [crawlLoop]
    by_cases hpg : mp ≤ pg
    · rw [if_pos hpg]
      constructor <;> simp [dequeuedDepths]
    · rw [if_neg hpg]
      by_cases hv : vis.contains item.url
      · rw [if_pos hv]
        obtain ⟨ihs, ihm⟩ := crawlLoop_sorted M env bd cross mdep mp fuel rest
          vis res pg (DepthOK_tail hok)
        refine ⟨List.sorted_cons.mpr ⟨fun b hb => ?_, ihs⟩, fun d hd => ?_⟩
        · obtain ⟨a, ha, hle⟩ := ihm b hb
          exact le_trans (DepthOK_head_le hok a ha) hle
        · have hd' : d ∈ item.depth :: dequeuedDepths
              (crawlLoop M env bd cross mdep mp fuel rest vis res pg).trace := hd
          rcases List.mem_cons.1 hd' with rfl | hd''
          · exact ⟨item, List.mem_cons_self _ _, le_refl _⟩
          · obtain ⟨a, ha, hle⟩ := ihm d hd''
            exact ⟨a, List.mem_cons_of_mem _ ha, hle⟩
      · rw [if_neg hv]
        by_cases hdep : mdep < item.depth
        · rw [if_pos hdep]
          obtain ⟨ihs, ihm⟩ := crawlLoop_sorted M env bd cross mdep mp fuel rest
            vis res pg (DepthOK_tail hok)
          refine ⟨List.sorted_cons.mpr ⟨fun b hb => ?_, ihs⟩, fun d hd => ?_⟩
          · obtain ⟨a, ha, hle⟩ := ihm b hb
            exact le_trans (DepthOK_head_le hok a ha) hle
          · have hd' : d ∈ item.depth :: dequeuedDepths
                (crawlLoop M env bd cross mdep mp fuel rest vis res pg).trace := hd
            rcases List.mem_cons.1 hd' with rfl | hd''
            · exact ⟨item, List.mem_cons_self _ _, le_refl _⟩
            · obtain ⟨a, ha, hle⟩ := ihm d hd''
              exact ⟨a, List.mem_cons_of_mem _ ha, hle⟩
        · rw [if_neg hdep]
          obtain ⟨added, hq, hdp, hlen, hev, hnone⟩ :=
            processPage_spec M env bd cross mdep item rest (item.url :: vis) res
          obtain ⟨hok', hge⟩ := DepthOK_step hok hdp
          rw [← hq] at hok' hge
          obtain ⟨ihs, ihm⟩ := crawlLoop_sorted M env bd cross mdep mp fuel
            (processPage M env bd cross mdep item rest (item.url :: vis) res).2.1
            (item.url :: vis)
            (processPage M env bd cross mdep item rest (item.url :: vis) res).1
            (pg + 1) hok'
          have henq : dequeuedDepths
              ((processPage M env bd cross mdep item rest (item.url :: vis) res).2.2) =
              [] :=
            dequeuedDepths_of_enqs _ fun e he =>
              (hev e he).imp fun u hu => ⟨item.depth + 1, hu.1⟩
          have htr : dequeuedDepths (Event.visit item.url item.depth ::
              ((processPage M env bd cross mdep item rest (item.url :: vis) res).2.2 ++
                (crawlLoop M env bd cross mdep mp fuel
                  (processPage M env bd cross mdep item rest (item.url :: vis) res).2.1
                  (item.url :: vis)
                  (processPage M env bd cross mdep item rest (item.url :: vis) res).1
                  (pg + 1)).trace)) =
              item.depth :: dequeuedDepths
                (crawlLoop M env bd cross mdep mp fuel
                  (processPage M env bd cross mdep item rest (item.url :: vis) res).2.1
                  (item.url :: vis)
                  (processPage M env bd cross mdep item rest (item.url :: vis) res).1
                  (pg + 1)).trace := by
            show dequeuedDepths (Event.visit item.url item.depth :: _) = _
            rw [show ∀ (s t : List Event), dequeuedDepths (Event.visit item.url item.depth :: (s ++ t)) = item.depth :: (dequeuedDepths s ++ dequeuedDepths t)
              from fun s t => by simp [dequeuedDepths, List.filterMap_append], henq]
            simp
          refine ⟨?_, ?_⟩
          · show (dequeuedDepths (Event.visit item.url item.depth :: _)).Sorted (· ≤ ·)
            rw [htr]
            refine List.sorted_cons.mpr ⟨fun b hb => ?_, ihs⟩
            obtain ⟨a, ha, hle⟩ := ihm b hb
            exact le_trans (hge a ha) hle
          · intro d hd
            have hd' : d ∈ dequeuedDepths (Event.visit item.url item.depth ::
                ((processPage M env bd cross mdep item rest (item.url :: vis) res).2.2 ++
                  (crawlLoop M env bd cross mdep mp fuel
                    (processPage M env bd cross mdep item rest (item.url :: vis) res).2.1
                    (item.url :: vis)
                    (processPage M env bd cross mdep item rest (item.url :: vis) res).1
                    (pg + 1)).trace)) := hd
            rw [htr] at hd'
            rcases List.mem_cons.1 hd' with rfl | hd''
            · exact ⟨item, List.mem_cons_self _ _, le_refl _⟩
            · obtain ⟨a, ha, hle⟩ := ihm d hd''
              rw [hq] at ha
              rcases List.mem_append.1 ha with ha | ha
              · exact ⟨a, List.mem_cons_of_mem _ ha, hle⟩
              · refine ⟨item, List.mem_cons_self _ _, ?_⟩
                rw [hdp a ha] at hle
                omega

/-- No fetch happens for an item deeper than `maxDepth`. -/
theorem crawlLoop_visit_le (M : URLModel) (env : CrawlEnv) (bd : String)
    (cross : Bool) (mdep mp : Nat) :
    ∀ (fuel : Nat) (q : List QueueItem) (vis : List String)
      (res : List ExtractionResult) (pg : Nat) (u : String) (d : Nat),
      Event.visit u d ∈ (crawlLoop M env bd cross mdep mp fuel q vis res pg).trace →
      d ≤ mdep
  | 0, q, vis, res, pg, u, d => by intro h; simp [crawlLoop] at h
  | _ + 1, [], vis, res, pg, u, d => by intro h; simp [crawlLoop] at h
  | fuel + 1, item :: rest, vis, res, pg, u, d => by
    intro h
    rw [crawlLoop] at h
    by_cases hpg : mp ≤ pg
    · rw [if_pos hpg] at h
      simp at h
    rw [if_neg hpg] at h
    by_cases hv : vis.contains item.url
    · rw [if_pos hv] at h
      have h' : Event.visit u d ∈ Event.skipVisited item.url item.depth ::
          (crawlLoop M env bd cross mdep mp fuel rest vis res pg).trace := h
      rcases List.mem_cons.1 h' with heq | h''
      · exact Event.noConfusion heq
      · exact crawlLoop_visit_le M env bd cross mdep mp fuel rest vis res pg u d h''
    rw [if_neg hv] at h
    by_cases hdep : mdep < item.depth
    · rw [if_pos hdep] at h
      have h' : Event.visit u d ∈ Event.skipDepth item.url item.depth ::
          (crawlLoop M env bd cross mdep mp fuel rest vis res pg).trace := h
      rcases List.mem_cons.1 h' with heq | h''
      · exact Event.noConfusion heq
      · exact crawlLoop_visit_le M env bd cross mdep mp fuel rest vis res pg u d h''
    · rw [if_neg hdep] at h
      obtain ⟨added, hq, hdp, hlen, hev, hnone⟩ :=
        processPage_spec M env bd cross mdep item rest (item.url :: vis) res
      have h' : Event.visit u d ∈ Event.visit item.url item.depth ::
          ((processPage M env bd cross mdep item rest (item.url :: vis) res).2.2 ++
            (crawlLoop M env bd cross mdep mp fuel
              (processPage M env bd cross mdep item rest (item.url :: vis) res).2.1
              (item.url :: vis)
              (processPage M env bd cross mdep item rest (item.url :: vis) res).1
              (pg + 1)).trace) := h
      rcases List.mem_cons.1 h' with heq | h''
      · injection heq with h1 h2
        omega
      · rcases List.mem_append.1 h'' with he | ho
        · obtain ⟨u', heq, _, _⟩ := hev _ he
          exact Event.noConfusion heq
        · exact crawlLoop_visit_le M env bd cross mdep mp fuel _
            (item.url :: vis) _ (pg + 1) u d ho

/-- Every enqueued depth is between 1 and `maxDepth`. -/
theorem crawlLoop_enq_le (M : URLModel) (env : CrawlEnv) (bd : String)
    (cross : Bool) (mdep mp : Nat) :
    ∀ (fuel : Nat) (q : List QueueItem) (vis : List String)
      (res : List ExtractionResult) (pg : Nat) (u : String) (d : Nat),
      Event.enq u d ∈ (crawlLoop M env bd cross mdep mp fuel q vis res pg).trace →
      1 ≤ d ∧ d ≤ mdep
  | 0, q, vis, res, pg, u, d => by intro h; simp [crawlLoop] at h
  | _ + 1, [], vis, res, pg, u, d => by intro h; simp [crawlLoop] at h
  | fuel + 1, item :: rest, vis, res, pg, u, d => by
    intro h
    rw [crawlLoop] at h
    by_cases hpg : mp ≤ pg
    · rw [if_pos hpg] at h
      simp at h
    rw [if_neg hpg] at h
    by_cases hv : vis.contains item.url
    · rw [if_pos hv] at h
      have h' : Event.enq u d ∈ Event.skipVisited item.url item.depth ::
          (crawlLoop M env bd cross mdep mp fuel rest vis res pg).trace := h
      rcases List.mem_cons.1 h' with heq | h''
      · exact Event.noConfusion heq
      · exact crawlLoop_enq_le M env bd cross mdep mp fuel rest vis res pg u d h''
    rw [if_neg hv] at h
    by_cases hdep : mdep < item.depth
    · rw [if_pos hdep] at h
      have h' : Event.enq u d ∈ Event.skipDepth item.url item.depth ::
          (crawlLoop M env bd cross mdep mp fuel rest vis res pg).trace := h
      rcases List.mem_cons.1 h' with heq | h''
      · exact Event.noConfusion heq
      · exact crawlLoop_enq_le M env bd cross mdep mp fuel rest vis res pg u d h''
    · rw [if_neg hdep] at h
      obtain ⟨added, hq, hdp, hlen, hev, hnone⟩ :=
        processPage_spec M env bd cross mdep item rest (item.url :: vis) res
      have h' : Event.enq u d ∈ Event.visit item.url item.depth ::
          ((processPage M env bd cross mdep item rest (item.url :: vis) res).2.2 ++
            (crawlLoop M env bd cross mdep mp fuel
              (processPage M env bd cross mdep item rest (item.url :: vis) res).2.1
              (item.url :: vis)
              (processPage M env bd cross mdep item rest (item.url :: vis) res).1
              (pg + 1)).trace) := h
      rcases List.mem_cons.1 h' with heq | h''
      · exact Event.noConfusion heq
      · rcases List.mem_append.1 h'' with he | ho
        · obtain ⟨u', heq, _, hlt⟩ := hev _ he
          injection heq with h1 h2
          omega
        · exact crawlLoop_enq_le M env bd cross mdep mp fuel _
            (item.url :: vis) _ (pg + 1) u d ho

/-- With `maxDepth = 0` nothing is ever enqueued and every fetched item
was already pending. -/
theorem crawlLoop_depth0 (M : URLModel) (env : CrawlEnv) (bd : String)
    (cross : Bool) (mp : Nat) :
    ∀ (fuel : Nat) (q : List QueueItem) (vis : List String)
      (res : List ExtractionResult) (pg : Nat),
      (∀ u d, Event.enq u d ∉ (crawlLoop M env bd cross 0 mp fuel q vis res pg).trace) ∧
      (∀ u d, Event.visit u d ∈ (crawlLoop M env bd cross 0 mp fuel q vis res pg).trace →
        QueueItem.mk u d ∈ q)
  | 0, q, vis, res, pg => by constructor <;> intro u d <;> simp [crawlLoop]
  | _ + 1, [], vis, res, pg => by constructor <;> intro u d <;> simp [crawlLoop]
  | fuel + 1, item :: rest, vis, res, pg => by
    rw [crawlLoop]
    by_cases hpg : mp ≤ pg
    · rw [if_pos hpg]
      constructor <;> intro u d <;> simp
    rw [if_neg hpg]
    by_cases hv : vis.contains item.url
    · rw [if_pos hv]
      obtain ⟨ih1, ih2⟩ := crawlLoop_depth0 M env bd cross mp fuel rest vis res pg
      constructor
      · intro u d hmem
        have h' : Event.enq u d ∈ Event.skipVisited item.url item.depth ::
            (crawlLoop M env bd cross 0 mp fuel rest vis res pg).trace := hmem
        rcases List.mem_cons.1 h' with heq | h''
        · exact Event.noConfusion heq
        · exact ih1 u d h''
      · intro u d hmem
        have h' : Event.visit u d ∈ Event.skipVisited item.url item.depth ::
            (crawlLoop M env bd cross 0 mp fuel rest vis res pg).trace := hmem
        rcases List.mem_cons.1 h' with heq | h''
        · exact Event.noConfusion heq
        · exact List.mem_cons_of_mem _ (ih2 u d h'')
    rw [if_neg hv]
    by_cases hdep : (0 : Nat) < item.depth
    · rw [if_pos hdep]
      obtain ⟨ih1, ih2⟩ := crawlLoop_depth0 M env bd cross mp fuel rest vis res pg
      constructor
      · intro u d hmem
        have h' : Event.enq u d ∈ Event.skipDepth item.url item.depth ::
            (crawlLoop M env bd cross 0 mp fuel rest vis res pg).trace := hmem
        rcases List.mem_cons.1 h' with heq | h''
        · exact Event.noConfusion heq
        · exact ih1 u d h''
      · intro u d hmem
        have h' : Event.visit u d ∈ Event.skipDepth item.url item.depth ::
            (crawlLoop M env bd cross 0 mp fuel rest vis res pg).trace := hmem
        rcases List.mem_cons.1 h' with heq | h''
        · exact Event.noConfusion heq
        · exact List.mem_cons_of_mem _ (ih2 u d h'')
    · rw [if_neg hdep]
      obtain ⟨added, hq, hdp, hlen, hev, hnone⟩ :=
        processPage_spec M env bd cross 0 item rest (item.url :: vis) res
      obtain ⟨hq0, hev0⟩ := hnone (Nat.not_lt_zero _)
      obtain ⟨ih1, ih2⟩ := crawlLoop_depth0 M env bd cross mp fuel
        (processPage M env bd cross 0 item rest (item.url :: vis) res).2.1
        (item.url :: vis)
        (processPage M env bd cross 0 item rest (item.url :: vis) res).1 (pg + 1)
      constructor
      · intro u d hmem
        have h' : Event.enq u d ∈ Event.visit item.url item.depth ::
            ((processPage M env bd cross 0 item rest (item.url :: vis) res).2.2 ++
              (crawlLoop M env bd cross 0 mp fuel
                (processPage M env bd cross 0 item rest (item.url :: vis) res).2.1
                (item.url :: vis)
                (processPage M env bd cross 0 item rest (item.url :: vis) res).1
                (pg + 1)).trace) := hmem
        rcases List.mem_cons.1 h' with heq | h''
        · exact Event.noConfusion heq
        · rw [hev0] at h''
          exact ih1 u d (by simpa using h'')
      · intro u d hmem
        have h' : Event.visit u d ∈ Event.visit item.url item.depth ::
            ((processPage M env bd cross 0 item rest (item.url :: vis) res).2.2 ++
              (crawlLoop M env bd cross 0 mp fuel
                (processPage M env bd cross 0 item rest (item.url :: vis) res).2.1
                (item.url :: vis)
                (processPage M env bd cross 0 item rest (item.url :: vis) res).1
                (pg + 1)).trace) := hmem
        rcases List.mem_cons.1 h' with heq | h''
        · injection heq with h1 h2
          subst h1
          subst h2
          exact List.mem_cons_self _ _
        · rw [hev0] at h''
          have := ih2 u d (by simpa using h'')
          rw [hq0] at this
          exact List.mem_cons_of_mem _ this

/-- Page accounting: the final page counter equals the starting counter
plus the number of fetches in the trace, and it never exceeds `maxPages`
when it starts below it. -/
theorem crawlLoop_pages (M : URLModel) (env : CrawlEnv) (bd : String)
    (cross : Bool) (mdep mp : Nat) :
    ∀ (fuel : Nat) (q : List QueueItem) (vis : List String)
      (res : List ExtractionResult) (pg : Nat),
      (crawlLoop M env bd cross mdep mp fuel q vis res pg).finalPages =
        pg + (visitURLs (crawlLoop M env bd cross mdep mp fuel q vis res pg).trace).length ∧
      (pg ≤ mp → (crawlLoop M env bd cross mdep mp fuel q vis res pg).finalPages ≤ mp)
  | 0, q, vis, res, pg => by constructor <;> simp [crawlLoop, visitURLs]
  | _ + 1, [], vis, res, pg => by constructor <;> simp [crawlLoop, visitURLs]
  | fuel + 1, item :: rest, vis, res, pg => by
    rw [crawlLoop]
    by_cases hpg : mp ≤ pg
    · rw [if_pos hpg]
      constructor <;> simp [visitURLs]
    rw [if_neg hpg]
    by_cases hv : vis.contains item.url
    · rw [if_pos hv]
      obtain ⟨ih1, ih2⟩ := crawlLoop_pages M env bd cross mdep mp fuel rest vis res pg
      exact ⟨ih1, ih2⟩
    rw [if_neg hv]
    by_cases hdep : mdep < item.depth
    · rw [if_pos hdep]
      obtain ⟨ih1, ih2⟩ := crawlLoop_pages M env bd cross mdep mp fuel rest vis res pg
      exact ⟨ih1, ih2⟩
    · rw [if_neg hdep]
      obtain ⟨added, hq, hdp, hlen, hev, hnone⟩ :=
        processPage_spec M env bd cross mdep item rest (item.url :: vis) res
      obtain ⟨ih1, ih2⟩ := crawlLoop_pages M env bd cross mdep mp fuel
        (processPage M env bd cross mdep item rest (item.url :: vis) res).2.1
        (item.url :: vis)
        (processPage M env bd cross mdep item rest (item.url :: vis) res).1 (pg + 1)
      have henq : visitURLs
          ((processPage M env bd cross mdep item rest (item.url :: vis) res).2.2) = [] :=
        visitURLs_of_enqs _ fun e he => (hev e he).imp fun u hu => ⟨item.depth + 1, hu.1⟩
      have htr : visitURLs (Event.visit item.url item.depth ::
          ((processPage M env bd cross mdep item rest (item.url :: vis) res).2.2 ++
            (crawlLoop M env bd cross mdep mp fuel
              (processPage M env bd cross mdep item rest (item.url :: vis) res).2.1
              (item.url :: vis)
              (processPage M env bd cross mdep item rest (item.url :: vis) res).1
              (pg + 1)).trace)) =
          item.url :: visitURLs
            (crawlLoop M env bd cross mdep mp fuel
              (processPage M env bd cross mdep item rest (item.url :: vis) res).2.1
              (item.url :: vis)
              (processPage M env bd cross mdep item rest (item.url :: vis) res).1
              (pg + 1)).trace := by
        rw [show visitURLs (Event.visit item.url item.depth ::
            ((processPage M env bd cross mdep item rest (item.url :: vis) res).2.2 ++
              (crawlLoop M env bd cross mdep mp fuel
                (processPage M env bd cross mdep item rest (item.url :: vis) res).2.1
                (item.url :: vis)
                (processPage M env bd cross mdep item rest (item.url :: vis) res).1
                (pg + 1)).trace)) =
            item.url :: visitURLs
              ((processPage M env bd cross mdep item rest (item.url :: vis) res).2.2 ++
                (crawlLoop M env bd cross mdep mp fuel
                  (processPage M env bd cross mdep item rest (item.url :: vis) res).2.1
                  (item.url :: vis)
                  (processPage M env bd cross mdep item rest (item.url :: vis) res).1
                  (pg + 1)).trace) from rfl, visitURLs_append, henq]
        simp
      constructor
      · show (crawlLoop M env bd cross mdep mp fuel _ _ _ (pg + 1)).finalPages = _
        rw [ih1]
        show _ = pg + (visitURLs (Event.visit item.url item.depth :: _)).length
        rw [htr]
        simp
        omega
      · intro _
        show (crawlLoop M env bd cross mdep mp fuel _ _ _ (pg + 1)).finalPages ≤ mp
        exact ih2 (by omega)

/-- The fuel passed by `crawl` is sufficient: when the loop stops, it
stops because the queue is empty or the page budget is reached, never
because fuel ran out. -/
theorem crawlLoop_terminates (M : URLModel) (env : CrawlEnv) (bd : String)
    (cross : Bool) (mdep mp : Nat) :
    ∀ (fuel : Nat) (q : List QueueItem) (vis : List String)
      (res : List ExtractionResult) (pg : Nat),
      q.length + 1001 * (mp - pg) < fuel →
      (crawlLoop M env bd cross mdep mp fuel q vis res pg).finalQueue = [] ∨
        mp ≤ (crawlLoop M env bd cross mdep mp fuel q vis res pg).finalPages
  | 0, q, vis, res, pg => by intro h; omega
  | _ + 1, [], vis, res, pg => by intro _; exact Or.inl rfl
  | fuel + 1, item :: rest, vis, res, pg => by
    intro h
    rw [crawlLoop]
    by_cases hpg : mp ≤ pg
    · rw [if_pos hpg]
      exact Or.inr hpg
    rw [if_neg hpg]
    by_cases hv : vis.contains item.url
    · rw [if_pos hv]
      exact crawlLoop_terminates M env bd cross mdep mp fuel rest vis res pg
        (by simp at h ⊢; omega)
    rw [if_neg hv]
    by_cases hdep : mdep < item.depth
    · rw [if_pos hdep]
      exact crawlLoop_terminates M env bd cross mdep mp fuel rest vis res pg
        (by simp at h ⊢; omega)
    · rw [if_neg hdep]
      obtain ⟨added, hq, hdp, hlen, hev, hnone⟩ :=
        processPage_spec M env bd cross mdep item rest (item.url :: vis) res
      have hmax : max rest.length 1000 ≤ rest.length + 1000 :=
        max_le (Nat.le_add_right _ _) (Nat.le_add_left _ _)
      exact crawlLoop_terminates M env bd cross mdep mp fuel
        (processPage M env bd cross mdep item rest (item.url :: vis) res).2.1
        (item.url :: vis)
        (processPage M env bd cross mdep item rest (item.url :: vis) res).1 (pg + 1)
        (by simp at h; omega)

/-- The visited-once discipline yields distinct fetched URLs, all of them
outside the initially-visited set. -/
theorem visitedOnceOK_nodup :
    ∀ (t : List Event) (F : List String), visitedOnceOK F t →
      (visitURLs t).Nodup ∧ ∀ u ∈ visitURLs t, u ∉ F
  | [], F, _ => ⟨List.nodup_nil, by simp [visitURLs]⟩
  | e :: t, F, h => by
    cases e with
    | visit u d =>
      obtain ⟨hu, ht⟩ := h
      obtain ⟨hnd, hmem⟩ := visitedOnceOK_nodup t (u :: F) ht
      have hcons : visitURLs (Event.visit u d :: t) = u :: visitURLs t := rfl
      rw [hcons]
      refine ⟨List.nodup_cons.mpr
        ⟨fun hin => (hmem u hin) (List.mem_cons_self _ _), hnd⟩, ?_⟩
      intro v hv
      rcases List.mem_cons.1 hv with rfl | hv'
      · exact hu
      · exact fun hvF => (hmem v hv') (List.mem_cons_of_mem _ hvF)
    | skipVisited u d =>
      obtain ⟨_, ht⟩ := h
      exact visitedOnceOK_nodup t F ht
    | skipDepth u d => exact visitedOnceOK_nodup t F h
    | enq u d =>
      obtain ⟨_, ht⟩ := h
      exact visitedOnceOK_nodup t F ht

/-- Inversion of a successful `crawl`: the seed was valid, a base domain
was derived, and the outcome is that of the loop started on the
normalized seed at depth 0 with fresh state. -/
theorem crawl_ok {M : URLModel} {env : CrawlEnv} {s : String} {dm : Nat}
    {cd : Bool} {mp : Nat} {out : LoopOut}
    (h : crawl M env s dm cd mp = .ok out) :
    isValid M s = true ∧ getDomain M (normalizeURL M s) ≠ "" ∧
    out = crawlLoop M env (getDomain M (normalizeURL M s)) cd dm mp
      (1 + 1001 * mp + 1) [⟨normalizeURL M s, 0⟩] [] [] 0 := by
  rw [crawl] at h
  by_cases hval : isValid M s
  · rw [if_neg (not_not_intro hval)] at h
    by_cases hbd : getDomain M (normalizeURL M s) = ""
    · rw [if_pos hbd] at h
      exact Except.noConfusion h
    · rw [if_neg hbd] at h
      injection h with h'
      exact ⟨hval, hbd, h'.symm⟩
  · rw [if_pos hval] at h
    exact Except.noConfusion h

/-! ## The claims -/

/-- C1 (Visited-once): for every crawl that starts successfully — over
any URL model and any fetch/parse collaborators — the trace obeys the
visited-once discipline starting from the empty visited set: every
dequeued URL is marked visited at its (unique) `visit` event before any
processing, a URL is never enqueued after it has been fetched, and the
`skipVisited` discard fires exactly on URLs fetched earlier (so a
pending duplicate is dropped at dequeue without fetching); in
particular no URL is fetched more than once (`Nodup`). -/
theorem claim_C1_visited_once (M : URLModel) (env : CrawlEnv) (s : String)
    (dm : Nat) (cd : Bool) (mp : Nat) (out : LoopOut)
    (h : crawl M env s dm cd mp = .ok out) :
    visitedOnceOK [] out.trace ∧ (visitURLs out.trace).Nodup := by
  obtain ⟨-, -, rfl⟩ := crawl_ok h
  have h1 := crawlLoop_visitedOnce M env (getDomain M (normalizeURL M s)) cd dm mp
    (1 + 1001 * mp + 1) [⟨normalizeURL M s, 0⟩] [] [] 0
  exact ⟨h1, (visitedOnceOK_nodup _ _ h1).1⟩

/-- C2 (Breadth-first order): for every crawl that starts successfully,
the depths of dequeued items are nondecreasing over the whole trace (so
every depth-k item is dequeued and processed before any depth-(k+1)
item), and every enqueued link carries depth exactly one greater than
the page it was discovered on (links go to the back of the FIFO queue
at depth+1). -/
theorem claim_C2_bfs_order (M : URLModel) (env : CrawlEnv) (s : String)
    (dm : Nat) (cd : Bool) (mp : Nat) (out : LoopOut)
    (h : crawl M env s dm cd mp = .ok out) :
    (dequeuedDepths out.trace).Sorted (· ≤ ·) ∧ enqDepthOK none out.trace := by
  obtain ⟨-, -, rfl⟩ := crawl_ok h
  have hok : DepthOK [⟨normalizeURL M s, 0⟩] := by
    constructor
    · simp
    · intro a ha b hb
      rw [List.mem_singleton.1 ha, List.mem_singleton.1 hb]
      exact Nat.le_succ _
  exact ⟨(crawlLoop_sorted M env (getDomain M (normalizeURL M s)) cd dm mp
      (1 + 1001 * mp + 1) [⟨normalizeURL M s, 0⟩] [] [] 0 hok).1,
    crawlLoop_enqDepth M env (getDomain M (normalizeURL M s)) cd dm mp
      (1 + 1001 * mp + 1) [⟨normalizeURL M s, 0⟩] [] [] 0 none⟩

/-- C3 (Depth bound): for every crawl that starts successfully with
`maxDepth = d`, no fetch happens at a depth above `d` (a deeper item is
discarded at dequeue), every enqueued link has depth between 1 and `d`
(links are only discovered on pages of depth < `d`), and for `d = 0`
nothing is ever enqueued and only the normalized seed is ever fetched. -/
theorem claim_C3_depth_bound (M : URLModel) (env : CrawlEnv) (s : String)
    (dm : Nat) (cd : Bool) (mp : Nat) (out : LoopOut)
    (h : crawl M env s dm cd mp = .ok out) :
    (∀ u d, Event.visit u d ∈ out.trace → d ≤ dm) ∧
    (∀ u d, Event.enq u d ∈ out.trace → 1 ≤ d ∧ d ≤ dm) ∧
    (dm = 0 → (∀ u d, Event.enq u d ∉ out.trace) ∧
      (∀ u d, Event.visit u d ∈ out.trace → u = normalizeURL M s ∧ d = 0)) := by
  obtain ⟨-, -, rfl⟩ := crawl_ok h
  refine ⟨fun u d hm => crawlLoop_visit_le M env _ cd dm mp _ _ _ _ _ u d hm,
    fun u d hm => crawlLoop_enq_le M env _ cd dm mp _ _ _ _ _ u d hm, ?_⟩
  rintro rfl
  obtain ⟨h1, h2⟩ := crawlLoop_depth0 M env (getDomain M (normalizeURL M s)) cd mp
    (1 + 1001 * mp + 1) [⟨normalizeURL M s, 0⟩] [] [] 0
  refine ⟨h1, fun u d hm => ?_⟩
  have := h2 u d hm
  simpa [QueueItem.mk.injEq] using this

/-- C4 (Page budget): for every crawl that starts successfully with
`maxPages = p`, the number of fetches performed is at most `p` (and
equals the final `pagesVisited` counter), and the traversal stops
exactly at the loop condition: with an empty queue or with
`pagesVisited = p`. -/
theorem claim_C4_page_budget (M : URLModel) (env : CrawlEnv) (s : String)
    (dm : Nat) (cd : Bool) (mp : Nat) (out : LoopOut)
    (h : crawl M env s dm cd mp = .ok out) :
    (visitURLs out.trace).length ≤ mp ∧
    out.finalPages = (visitURLs out.trace).length ∧
    (out.finalQueue = [] ∨ out.finalPages = mp) := by
  obtain ⟨-, -, rfl⟩ := crawl_ok h
  obtain ⟨hp1, hp2⟩ := crawlLoop_pages M env (getDomain M (normalizeURL M s)) cd dm mp
    (1 + 1001 * mp + 1) [⟨normalizeURL M s, 0⟩] [] [] 0
  have hb := hp2 (Nat.zero_le _)
  have hterm := crawlLoop_terminates M env (getDomain M (normalizeURL M s)) cd dm mp
    (1 + 1001 * mp + 1) [⟨normalizeURL M s, 0⟩] [] [] 0 (by simp)
  refine ⟨by omega, by omega, ?_⟩
  rcases hterm with h' | h'
  · exact Or.inl h'
  · exact Or.inr (le_antisymm hb h')

/-- C5 (Page-local failure containment): at any reachable loop state, if
the front item's page fails — the fetch throws, reports a truthy error
or a non-2xx status, or its body fails to parse — the iteration
contributes no results and no enqueues (only the `visit` event), and
the loop continues on the remaining queue exactly as it would have:
the outcome is that of crawling the rest with unchanged results. -/
theorem claim_C5_failure_containment (M : URLModel) (env : CrawlEnv)
    (bd : String) (cross : Bool) (mdep mp fuel : Nat) (item : QueueItem)
    (rest : List QueueItem) (vis : List String) (res : List ExtractionResult)
    (pg : Nat) (hpg : pg < mp) (hv : vis.contains item.url = false)
    (hd : item.depth ≤ mdep) (hfail : pageFails env item.url) :
    crawlLoop M env bd cross mdep mp (fuel + 1) (item :: rest) vis res pg =
      ⟨Event.visit item.url item.depth ::
        (crawlLoop M env bd cross mdep mp fuel rest (item.url :: vis) res
          (pg + 1)).trace,
       (crawlLoop M env bd cross mdep mp fuel rest (item.url :: vis) res
          (pg + 1)).results,
       (crawlLoop M env bd cross mdep mp fuel rest (item.url :: vis) res
          (pg + 1)).finalQueue,
       (crawlLoop M env bd cross mdep mp fuel rest (item.url :: vis) res
          (pg + 1)).finalVisited,
       (crawlLoop M env bd cross mdep mp fuel rest (item.url :: vis) res
          (pg + 1)).finalPages⟩ := by
  have hpp : processPage M env bd cross mdep item rest (item.url :: vis) res =
      (res, rest, []) := by
    rcases hfail with ⟨e, hfe⟩ | ⟨r, hr, hcond⟩ | ⟨r, e, hr, hcond, hpe⟩
    · simp [processPage, hfe]
    · simp [processPage, hr, hcond]
    · simp [processPage, hr, hcond, hpe]
  rw [crawlLoop, if_neg (by omega : ¬ mp ≤ pg),
    if_neg (fun hc => Bool.false_ne_true (by rw [hv] at hc; exact hc)),
    if_neg (by omega : ¬ mdep < item.depth)]
  dsimp only
  rw [hpp]
  rfl

/-- C6 (Domain filter): with `crossDomain = false` every URL returned by
`discoverLinks` has host exactly equal to `baseDomain` (string equality,
so subdomains are excluded); with `crossDomain = true` every raw link
that resolves to a valid http(s) URL is kept regardless of host. -/
theorem claim_C6_domain_filter (M : URLModel) (links : List String)
    (bd base : String) :
    (∀ u ∈ discoverLinks M links bd base false, getDomain M u = bd) ∧
    (∀ link ∈ links, ∀ r, M.resolve link base = some r →
      isValid M (M.serialize r) = true →
      M.serialize r ∈ discoverLinks M links bd base true) := by
  constructor
  · intro u hu
    rw [discoverLinks_eq_spec, discoverLinksSpec] at hu
    obtain ⟨link, hlink, hadm⟩ := List.mem_filterMap.1 ((mem_dedupFirst _ _).1 hu)
    rcases hres : M.resolve link base with - | r <;>
      simp only [admitStep, hres] at hadm
    · exact Option.noConfusion hadm
    · by_cases hcond : (isValid M (M.serialize r) &&
          (false || getDomain M (M.serialize r) == bd)) = true
      · rw [if_pos hcond] at hadm
        injection hadm with h'
        subst h'
        have := ((Bool.and_eq_true _ _).mp hcond).2
        rw [Bool.false_or] at this
        exact eq_of_beq this
      · rw [if_neg hcond] at hadm
        exact Option.noConfusion hadm
  · intro link hlink r hres hval
    rw [discoverLinks_eq_spec, discoverLinksSpec]
    refine (mem_dedupFirst _ _).2 (List.mem_filterMap.2 ⟨link, hlink, ?_⟩)
    simp only [admitStep, hres]
    rw [if_pos (by simp [hval])]

/-- C7 (Fatal seed validation): `crawl` fails with `InvalidSeedURL`
exactly when the seed is not a valid absolute http(s) URL, fails with
`DomainExtractionFailure` when the seed is valid but no domain can be
derived from the normalized seed, and returns successfully otherwise —
the error cases hold for every fetch/parse environment, i.e. before any
fetch can occur. -/
theorem claim_C7_seed_validation (M : URLModel) (env : CrawlEnv) (s : String)
    (dm : Nat) (cd : Bool) (mp : Nat) :
    (isValid M s = false →
      crawl M env s dm cd mp = .error (.invalidSeedURL s)) ∧
    (isValid M s = true → getDomain M (normalizeURL M s) = "" →
      crawl M env s dm cd mp = .error (.domainExtractionFailure s)) ∧
    (isValid M s = true → getDomain M (normalizeURL M s) ≠ "" →
      ∃ o, crawl M env s dm cd mp = .ok o) := by
  refine ⟨fun hval => ?_, fun hval hbd => ?_, fun hval hbd => ?_⟩
  · rw [crawl, if_pos (by simp [hval])]
  · rw [crawl, if_neg (not_not_intro hval), if_pos hbd]
  · exact ⟨_, by rw [crawl, if_neg (not_not_intro hval), if_neg hbd]⟩

/-- C8 (Link-discovery totality, dedup and ordering): `discoverLinks` is
a total function equal to its purely-functional specification — resolve
each link, keep the admissible ones, and deduplicate keeping the first
occurrence in first-seen order; its output never repeats a URL; and an
individual link that fails to resolve is simply skipped, leaving the
result for the remaining links unchanged. -/
theorem claim_C8_totality_dedup_order (M : URLModel) (links : List String)
    (bd base : String) (cross : Bool) :
    discoverLinks M links bd base cross = discoverLinksSpec M links bd base cross ∧
    (discoverLinks M links bd base cross).Nodup ∧
    (∀ l1 link l2, M.resolve link base = none →
      discoverLinks M (l1 ++ link :: l2) bd base cross =
        discoverLinks M (l1 ++ l2) bd base cross) := by
  refine ⟨discoverLinks_eq_spec M links bd base cross, ?_, ?_⟩
  · rw [discoverLinks_eq_spec, discoverLinksSpec]
    exact dedupFirst_nodup _
  · intro l1 link l2 hres
    rw [discoverLinks_eq_spec, discoverLinks_eq_spec, discoverLinksSpec,
      discoverLinksSpec]
    have hadm : admitStep M bd base cross link = none := by rw [admitStep, hres]
    rw [List.filterMap_append, List.filterMap_append]
    simp [List.filterMap_cons, hadm]

/-- C9 (counterexample): `discoverLinks` does not return canonical
`NormalizedURL`s: a raw link whose resolved serialization carries a
trailing slash on a non-root path is returned as-is, and `normalizeURL`
maps it to a different string.  (The engine normalizes each link only
afterwards, at enqueue time.) -/
theorem claim_C9_counterexample :
    "http://example.com/a/" ∈
      discoverLinks jsURL ["http://example.com/a/"] "example.com"
        "http://example.com" false ∧
    normalizeURL jsURL "http://example.com/a/" ≠ "http://example.com/a/" := by
  constructor
  · decide
  · decide

/-- C9 (amended): every URL string returned by `discoverLinks` is the
serialization of a successfully resolved URL and passes `isValid`
(absolute with http(s) scheme); canonical normalization is not
guaranteed at this layer and is applied by the crawler engine when
enqueuing. -/
theorem claim_C9_output_valid (M : URLModel) (links : List String)
    (bd base : String) (cross : Bool) :
    ∀ u ∈ discoverLinks M links bd base cross, isValid M u = true := by
  intro u hu
  rw [discoverLinks_eq_spec, discoverLinksSpec] at hu
  obtain ⟨link, hlink, hadm⟩ := List.mem_filterMap.1 ((mem_dedupFirst _ _).1 hu)
  rcases hres : M.resolve link base with - | r <;>
    simp only [admitStep, hres] at hadm
  · exact Option.noConfusion hadm
  · by_cases hcond : (isValid M (M.serialize r) &&
        (cross || getDomain M (M.serialize r) == bd)) = true
    · rw [if_pos hcond] at hadm
      injection hadm with h'
      subst h'
      exact ((Bool.and_eq_true _ _).mp hcond).1
    · rw [if_neg hcond] at hadm
      exact Option.noConfusion hadm

/-! ## Extractor shape lemmas -/

theorem prefixesDesc_all (p : Char → Bool) :
    ∀ (l : List Char) (pr : List Char × List Char), pr ∈ prefixesDesc p l →
      ∀ c ∈ pr.1, p c = true
  | [], pr, h => by
    simp [prefixesDesc] at h
    subst h
    intro c hc
    simp at hc
  | x :: xs, pr, h => by
    rw [prefixesDesc] at h
    by_cases hx : p x
    · rw [if_pos hx] at h
      rcases List.mem_append.1 h with h' | h'
      · obtain ⟨pr', hpr', rfl⟩ := List.mem_map.1 h'
        intro c hc
        rcases List.mem_cons.1 hc with rfl | hc'
        · exact hx
        · exact prefixesDesc_all p xs pr' hpr' c hc'
      · simp at h'
        subst h'
        intro c hc
        simp at hc
    · rw [if_neg hx] at h
      simp at h
      subst h
      intro c hc
      simp at hc

theorem firstSome_mem {α β : Type} {f : α → Option β} :
    ∀ {l : List α} {b : β}, firstSome f l = some b → ∃ a ∈ l, f a = some b
  | [], b, h => Option.noConfusion h
  | x :: xs, b, h => by
    rw [firstSome] at h
    rcases hf : f x with - | y
    · rw [hf] at h
      obtain ⟨a, ha, hfa⟩ := firstSome_mem h
      exact ⟨a, List.mem_cons_of_mem _ ha, hfa⟩
    · rw [hf] at h
      injection h with h'
      subst h'
      exact ⟨x, List.mem_cons_self _ _, hf⟩

/-- Every match of `EMAIL_PATTERN` has the shape
`c0 ++ mid ++ a ++ "@" ++ domain` with alphanumeric `c0` and `a` and
local-class characters in `mid` — the regex's local part is at least
two characters, starting and ending alphanumeric. -/
theorem matchAt_shape :
    ∀ (l m rest : List Char), matchAt l = some (m, rest) →
      ∃ c0 mid a dom, m = c0 :: (mid ++ a :: '@' :: dom) ∧
        isAlnum c0 = true ∧ isAlnum a = true ∧ ∀ c ∈ mid, isLocalChar c = true := by
  intro l m rest h
  match l with
  | [] => exact Option.noConfusion h
  | c0 :: l0 =>
    rw [matchAt] at h
    by_cases hc0 : isAlnum c0
    · rw [if_pos hc0] at h
      obtain ⟨pr, hpr, hf⟩ := firstSome_mem h
      match hpr2 : pr.2 with
      | [] =>
        rw [hpr2] at hf
        exact Option.noConfusion hf
      | [a] =>
        rw [hpr2] at hf
        exact Option.noConfusion hf
      | a :: c :: r2 =>
        rw [hpr2] at hf
        dsimp only at hf
        by_cases hac : (isAlnum a && (c == '@')) = true
        · rw [if_pos hac] at hf
          match hmd : matchDomain r2 with
          | none =>
            rw [hmd] at hf
            exact Option.noConfusion hf
          | some dr =>
            rw [hmd] at hf
            injection hf with h'
            rw [Prod.mk.injEq] at h'
            refine ⟨c0, pr.1, a, dr.1, h'.1.symm, hc0,
              ((Bool.and_eq_true _ _).mp hac).1, ?_⟩
            exact prefixesDesc_all isLocalChar l0 pr hpr
        · rw [if_neg hac] at hf
          exact Option.noConfusion hf
    · rw [if_neg hc0] at h
      exact Option.noConfusion h

theorem scanEmails_shape :
    ∀ (fuel : Nat) (prev : Option Char) (l m : List Char),
      m ∈ scanEmails fuel prev l →
      ∃ c0 mid a dom, m = c0 :: (mid ++ a :: '@' :: dom) ∧
        isAlnum c0 = true ∧ isAlnum a = true ∧ ∀ c ∈ mid, isLocalChar c = true
  | 0, prev, l, m => by
    intro h
    simp [scanEmails] at h
  | _ + 1, prev, [], m => by
    intro h
    simp [scanEmails] at h
  | fuel + 1, prev, c :: cs, m => by
    intro h
    rw [scanEmails.eq_def] at h
    dsimp only at h
    have hstep : m ∈ (match matchAt (c :: cs) with
        | some (m0, rest) => m0 :: scanEmails fuel (some (m0.getLastD c)) rest
        | none => scanEmails fuel (some c) cs) →
        ∃ c0 mid a dom, m = c0 :: (mid ++ a :: '@' :: dom) ∧
          isAlnum c0 = true ∧ isAlnum a = true ∧
          ∀ c ∈ mid, isLocalChar c = true := by
      intro hin
      match hma : matchAt (c :: cs) with
      | none =>
        rw [hma] at hin
        exact scanEmails_shape fuel (some c) cs m hin
      | some (m0, rest) =>
        rw [hma] at hin
        have hin' : m ∈ m0 :: scanEmails fuel (some (m0.getLastD c)) rest := hin
        rcases List.mem_cons.1 hin' with rfl | h3
        · exact matchAt_shape _ _ _ hma
        · exact scanEmails_shape fuel _ rest m h3
    cases prev with
    | none =>
      dsimp only at h
      rw [if_pos rfl] at h
      exact hstep h
    | some p =>
      dsimp only at h
      by_cases hw : isWordChar p
      · rw [if_neg (by simp [hw])] at h
        exact scanEmails_shape fuel (some c) cs m h
      · rw [if_pos (by simp [hw])] at h
        exact hstep h

theorem takeWhile_until (ys : List Char) :
    ∀ xs : List Char, (∀ c ∈ xs, (c != '@') = true) →
      (xs ++ '@' :: ys).takeWhile (fun c => c != '@') = xs
  | [], _ => by simp [List.takeWhile]
  | x :: xs, h => by
    rw [List.cons_append, List.takeWhile_cons, if_pos (h x (List.mem_cons_self _ _)),
      takeWhile_until ys xs fun c hc => h c (List.mem_cons_of_mem _ hc)]

theorem alnum_ne_at {c : Char} (h : isAlnum c = true) : (c != '@') = true := by
  by_cases hc : c = '@'
  · subst hc
    exact absurd h (by decide)
  · simpa using hc

theorem localChar_ne_at {c : Char} (h : isLocalChar c = true) : (c != '@') = true := by
  by_cases hc : c = '@'
  · subst hc
    exact absurd h (by decide)
  · simpa using hc

theorem localPartOK_of_shape (c0 a : Char) (mid dom : List Char)
    (hc0 : isAlnum c0 = true) (ha : isAlnum a = true)
    (hmid : ∀ c ∈ mid, isLocalChar c = true) :
    localPartOK (String.mk (c0 :: (mid ++ a :: '@' :: dom))) = true := by
  have hne : ∀ c ∈ c0 :: mid ++ [a], (c != '@') = true := by
    intro c hc
    rcases List.mem_cons.1 hc with rfl | hc'
    · exact alnum_ne_at hc0
    · rcases List.mem_append.1 hc' with hc'' | hc''
      · exact localChar_ne_at (hmid c hc'')
      · rw [List.mem_singleton.1 hc'']
        exact alnum_ne_at ha
  have hsplit : c0 :: (mid ++ a :: '@' :: dom) = (c0 :: mid ++ [a]) ++ '@' :: dom := by
    simp
  have htake : (c0 :: (mid ++ a :: '@' :: dom)).takeWhile (fun c => c != '@') =
      c0 :: mid ++ [a] := by
    rw [hsplit]
    exact takeWhile_until dom _ hne
  rw [localPartOK]
  dsimp only
  rw [htake]
  have hlast : (c0 :: mid ++ [a]).getLast? = some a := by
    rw [show c0 :: mid ++ [a] = (c0 :: mid) ++ [a] from rfl]
    exact List.getLast?_concat _
  have hhead : (c0 :: mid ++ [a]).head? = some c0 := rfl
  rw [hlast, hhead]
  simp [hc0, ha]

/-- Every address `extract` returns obeys the local-part shape. -/
theorem extract_localPartOK (text : String) :
    ∀ e ∈ extract text, localPartOK e = true := by
  intro e he
  rw [extract] at he
  by_cases ht : text = ""
  · rw [if_pos ht] at he
    simp at he
  · rw [if_neg ht] at he
    have he1 := (mem_dedupFirst _ _).1 he
    have he2 := (List.mem_filter.1 he1).1
    obtain ⟨m, hm, rfl⟩ := List.mem_map.1 he2
    obtain ⟨c0, mid, a, dom, rfl, hc0, ha, hmid⟩ := scanEmails_shape _ _ _ _ hm
    exact localPartOK_of_shape c0 a mid dom hc0 ha hmid

/-- C10 (implicit — minimum local-part length): every email address
`extract` returns has a local part (the segment before the first `@`)
of at least two characters whose first and last characters are
alphanumeric; `a@example.com` passes `isValidEmail`'s 1-to-64-character
check, yet no text can make `extract` return it, because the matching
pattern requires two anchor characters around the local-part star. -/
theorem claim_C10_min_local_part :
    (∀ text, ∀ e ∈ extract text, localPartOK e = true) ∧
    isValidEmail "a@example.com" = true ∧
    (∀ text, "a@example.com" ∉ extract text) := by
  refine ⟨extract_localPartOK, by decide, fun text hmem => ?_⟩
  have h := extract_localPartOK text _ hmem
  have hfalse : localPartOK "a@example.com" = false := by decide
  rw [hfalse] at h
  exact Bool.false_ne_true h

/-! ## Witnesses -/

/-- C1 witness: the fixture crawl succeeds and fetches each URL once. -/
theorem claim_C1_witness :
    demoCrawl = .ok demoOut ∧ (visitURLs demoOut.trace).Nodup :=
  ⟨rfl,
   (claim_C1_visited_once jsURL demoEnv "http://site.test" 2 false 10 demoOut
      rfl).2⟩

/-- C2 witness: the fixture crawl dequeues depths in nondecreasing order
and enqueues at page depth plus one. -/
theorem claim_C2_witness :
    (dequeuedDepths demoOut.trace).Sorted (· ≤ ·) ∧ enqDepthOK none demoOut.trace :=
  claim_C2_bfs_order jsURL demoEnv "http://site.test" 2 false 10 demoOut rfl

/-- C3 witness: a depth-2 visit of the fixture crawl respects the depth
bound, and the depth-0 crawl enqueues nothing. -/
theorem claim_C3_witness :
    (Event.visit "http://site.test/b" 2 ∈ demoOut.trace ∧ 2 ≤ 2) ∧
    Event.enq "http://site.test/a" 1 ∉ demo0Out.trace :=
  ⟨⟨by decide,
    (claim_C3_depth_bound jsURL demoEnv "http://site.test" 2 false 10 demoOut
        rfl).1 "http://site.test/b" 2 (by decide)⟩,
   ((claim_C3_depth_bound jsURL demoEnv "http://site.test" 0 false 10 demo0Out
        rfl).2.2 rfl).1 "http://site.test/a" 1⟩

/-- C4 witness: the fixture crawl stays within its budget of 10 pages and
stops with an empty queue. -/
theorem claim_C4_witness :
    (visitURLs demoOut.trace).length ≤ 10 ∧
    (demoOut.finalQueue = [] ∨ demoOut.finalPages = 10) :=
  ⟨(claim_C4_page_budget jsURL demoEnv "http://site.test" 2 false 10 demoOut
      rfl).1,
   (claim_C4_page_budget jsURL demoEnv "http://site.test" 2 false 10 demoOut
      rfl).2.2⟩

/-- C5 witness: dequeuing the fixture's HTTP-500 page visits it, adds no
results and no links, and the crawl goes on to finish normally. -/
theorem claim_C5_witness :
    pageFails demoEnv "http://site.test/bad" ∧
    crawlLoop jsURL demoEnv "site.test" false 2 10 4
        [⟨"http://site.test/bad", 1⟩] [] [] 0 =
      ⟨[Event.visit "http://site.test/bad" 1], [], [],
        ["http://site.test/bad"], 1⟩ := by
  have hfail : pageFails demoEnv "http://site.test/bad" :=
    Or.inr (Or.inl ⟨⟨500, "", none⟩, rfl, by decide⟩)
  refine ⟨hfail, ?_⟩
  rw [claim_C5_failure_containment jsURL demoEnv "site.test" false 2 10 3
    ⟨"http://site.test/bad", 1⟩ [] [] [] 0 (by decide) (by decide) (by decide)
    hfail]
  rfl

/-- C6 witness: with `crossDomain = false` only the exact-host link
survives (the `www.` subdomain is excluded), and with
`crossDomain = true` the foreign-host link is kept. -/
theorem claim_C6_witness :
    getDomain jsURL "http://site.test/y" = "site.test" ∧
    "http://other.test/z" ∈ discoverLinks jsURL
      ["http://www.site.test/x", "http://site.test/y", "http://other.test/z"]
      "site.test" "http://site.test/" true ∧
    discoverLinks jsURL ["http://www.site.test/x", "http://site.test/y"]
      "site.test" "http://site.test/" false = ["http://site.test/y"] := by
  refine ⟨?_, ?_, by decide⟩
  · exact (claim_C6_domain_filter jsURL
      ["http://www.site.test/x", "http://site.test/y"] "site.test"
      "http://site.test/").1 "http://site.test/y" (by decide)
  · exact (claim_C6_domain_filter jsURL
      ["http://www.site.test/x", "http://site.test/y", "http://other.test/z"]
      "site.test" "http://site.test/").2 "http://other.test/z" (by decide)
      ⟨"http:", "other.test", "", "/z", "", ""⟩ (by decide) (by decide)

/-- C7 witness: an unparsable seed and a `mailto:` seed raise
`InvalidSeedURL`, a model with empty hosts raises
`DomainExtractionFailure`, and the fixture seed crawls successfully. -/
theorem claim_C7_witness :
    crawl jsURL demoEnv "notaurl" 3 false 100 =
      .error (.invalidSeedURL "notaurl") ∧
    crawl jsURL demoEnv "mailto:a@b.c" 3 false 100 =
      .error (.invalidSeedURL "mailto:a@b.c") ∧
    crawl emptyHostURL demoEnv "x" 3 false 100 =
      .error (.domainExtractionFailure "x") ∧
    (∃ o, crawl jsURL demoEnv "http://site.test" 2 false 10 = .ok o) :=
  ⟨(claim_C7_seed_validation jsURL demoEnv "notaurl" 3 false 100).1 (by decide),
   (claim_C7_seed_validation jsURL demoEnv "mailto:a@b.c" 3 false 100).1
     (by decide),
   (claim_C7_seed_validation emptyHostURL demoEnv "x" 3 false 100).2.1
     (by decide) (by decide),
   (claim_C7_seed_validation jsURL demoEnv "http://site.test" 2 false 10).2.2
     (by decide) (by decide)⟩

/-- C8 witness: duplicate raw links collapse to the first occurrence in
order, and an unresolvable link (`http://` with no host) is skipped
without affecting the others. -/
theorem claim_C8_witness :
    (discoverLinks jsURL ["/a", "/b", "/a"] "site.test" "http://site.test/"
      false).Nodup ∧
    discoverLinks jsURL (["/a"] ++ "http://" :: ["/b"]) "site.test"
        "http://site.test/" false =
      discoverLinks jsURL (["/a"] ++ ["/b"]) "site.test" "http://site.test/"
        false ∧
    discoverLinks jsURL ["/a", "/b", "/a"] "site.test" "http://site.test/"
        false = ["http://site.test/a", "http://site.test/b"] :=
  ⟨(claim_C8_totality_dedup_order jsURL ["/a", "/b", "/a"] "site.test"
      "http://site.test/" false).2.1,
   (claim_C8_totality_dedup_order jsURL [] "site.test" "http://site.test/"
      false).2.2 ["/a"] "http://" ["/b"] (by decide),
   by decide⟩

/-- C9 witness (amended claim): the returned trailing-slash URL is still
a valid absolute http URL. -/
theorem claim_C9_witness :
    "http://example.com/a/" ∈ discoverLinks jsURL ["http://example.com/a/"]
      "example.com" "http://example.com" false ∧
    isValid jsURL "http://example.com/a/" = true :=
  ⟨by decide,
   claim_C9_output_valid jsURL ["http://example.com/a/"] "example.com"
     "http://example.com" false "http://example.com/a/" (by decide)⟩

/-- C10 witness: a two-character local part is extracted and satisfies
the shape, while the one-character local part in the same text is not
extracted. -/
theorem claim_C10_witness :
    "ab@example.com" ∈ extract "mail me: ab@example.com a@example.com" ∧
    localPartOK "ab@example.com" = true ∧
    "a@example.com" ∉ extract "mail me: ab@example.com a@example.com" :=
  ⟨by decide,
   claim_C10_min_local_part.1 "mail me: ab@example.com a@example.com"
     "ab@example.com" (by decide),
   claim_C10_min_local_part.2.2 "mail me: ab@example.com a@example.com"⟩

end EmailCrawler

